import Mathlib

/-!
The hotplug daemon devd of lazy-utils

A shallow embedding of `src/utils/devd.c`.

Memory is a list of bytes (`List Nat`, one `unsigned char` each) and a pointer
into an array is an index into that list.  A C string is read from a list
suffix up to its first NUL; the end of a list reads as NUL.  The results of
system calls (`fork`, `open`, `read`, `sigwait`, `recv`, ...) are inputs.
-/

namespace Devd

/-! ## C strings -/

/-- Bytes of a string literal, without the terminator. -/
def bytes (s : String) : List Nat := s.toList.map Char.toNat

/-- The C string that starts at a list suffix: the bytes before the first NUL. -/
def cstr (l : List Nat) : List Nat := l.takeWhile (fun b => b != 0)

/-- Modelled from the spec: the macro STRLEN of liblazy/common.h is not among
the sources.  For the keys to be recognised the way the spec describes, it is
the length of a string literal without its terminator. -/
def STRLEN (literal : List Nat) : Nat := literal.length

/-- Worker of `strchr`: scan the suffix, `i` being the index of its head. -/
def strchrFrom : List Nat → Nat → Nat → Option Nat
  | [], _, _ => none
  | b :: bs, c, i =>
    if b = c then some i else if b = 0 then none else strchrFrom bs c (i + 1)

/-- The call `strchr(mem + s, c)` for a character `c` other than NUL: the index
of the first `c` before the first NUL, or `none` for a NULL result. -/
def strchr (mem : List Nat) (s : Nat) (c : Nat) : Option Nat :=
  strchrFrom (mem.drop s) c s

/-- Worker of `strlen` on a list suffix. -/
def strlenFrom : List Nat → Nat
  | [] => 0
  | b :: bs => if b = 0 then 0 else 1 + strlenFrom bs

/-- The call `strlen(mem + s)`. -/
def strlen (mem : List Nat) (s : Nat) : Nat := strlenFrom (mem.drop s)

/-- The call `strncmp(s1, s2, n)`: the difference of the first bytes that
differ among the first `n`, no byte after a NUL being compared. -/
def strncmp : List Nat → List Nat → Nat → Int
  | _, _, 0 => 0
  | s1, s2, n + 1 =>
    if s1.headD 0 ≠ s2.headD 0 then (s1.headD 0 : Int) - (s2.headD 0 : Int)
    else if s1.headD 0 = 0 then 0
    else strncmp s1.tail s2.tail n

/-- The call `strcmp(s1, s2)`. -/
def strcmp : List Nat → List Nat → Int
  | [], s2 => 0 - (s2.headD 0 : Int)
  | a :: s1, s2 =>
    if a ≠ s2.headD 0 then (a : Int) - (s2.headD 0 : Int)
    else if a = 0 then 0
    else strcmp s1 s2.tail

/-! ## `_load_module` -/

/-- The function `_load_module`, seen from the daemon: `fork_ret` is what
`fork` returned there, -1 or the pid of the child.  (The child, where `fork`
returns 0, becomes `modprobe alias` or exits; it never returns to the caller.) -/
def _load_module (fork_ret : Int) : Bool :=
  if fork_ret = -1 then false else true

/-! ## `_handle_new_device` -/

/-- The local variables of the scan loop of `_handle_new_device`; a pointer is
an index into the message, `none` is NULL. -/
structure Scan where
  position : Nat
  action : Option Nat
  module_alias : Option Nat
deriving DecidableEq, Repr

/-- One run of the body of the do-while loop (lines 155-171). -/
def scanBody (message : List Nat) (s : Scan) : Scan :=
  match strchr message s.position 61 with
  | none => { s with position := s.position + (1 + strlen message s.position) }
  | some delimeter =>
    if 0 = strncmp (bytes "MODALIAS=") (message.drop s.position)
        (STRLEN (bytes "MODALIAS=")) then
      { position := s.position + (1 + strlen message (delimeter + 1)),
        action := s.action,
        module_alias := some (delimeter + 1) }
    else if 0 = strncmp (bytes "ACTION=") (message.drop s.position)
        (STRLEN (bytes "ACTION=")) then
      { position := s.position + (1 + strlen message (delimeter + 1)),
        action := some (delimeter + 1),
        module_alias := s.module_alias }
    else
      { s with position := s.position + (1 + strlen message delimeter) }

/-- The do-while loop (lines 154-172): the body runs, then the loop goes on
while `len >= position - message`.  `none` when the fuel runs out. -/
def scanLoop (message : List Nat) (len : Nat) : Nat → Scan → Option Scan
  | 0, _ => none
  | fuel + 1, s =>
    let s1 := scanBody message s
    if len ≥ s1.position then scanLoop message len fuel s1 else some s1

/-- Lines 145-172: locate the `@`, then scan.  `some none` is the jump to `end`
for a message without `@`; the outer `none` is the fuel running out (it never
does, see `scan_ne_none`). -/
def scan (message : List Nat) (len : Nat) : Option (Option Scan) :=
  match strchr message 0 64 with
  | none => some none
  | some position =>
    (scanLoop message len (len + 1) ⟨position, none, none⟩).map some

/-- What the scan extracted, as strings. -/
structure ParsedEvent where
  action : Option (List Nat)
  modalias : Option (List Nat)
deriving DecidableEq, Repr

/-- The parser inside `_handle_new_device`: the strings the two pointers
designate when the loop is left. -/
def parse (message : List Nat) (len : Nat) : Option ParsedEvent :=
  (scan message len).map fun r =>
    match r with
    | none => ⟨none, none⟩
    | some s =>
      ⟨s.action.map fun p => cstr (message.drop p),
       s.module_alias.map fun p => cstr (message.drop p)⟩

/-- How a call of `_handle_new_device` ends. -/
inductive Handled where
  /-- It returns `is_success`, having called `_load_module` with each of `loaded`. -/
  | returned (is_success : Bool) (loaded : List (List Nat))
  /-- It reaches `strcmp("add", action)` with `action` NULL. -/
  | null_action
  /-- The model ran out of fuel. -/
  | no_fuel
deriving DecidableEq, Repr

/-- The function `_handle_new_device(message, len)`. -/
def _handle_new_device (fork_ret : Int) (message : List Nat) (len : Nat) : Handled :=
  match scan message len with
  | none => .no_fuel
  | some none => .returned true []
  | some (some s) =>
    match s.module_alias with
    | none => .returned true []
    | some module_alias =>
      match s.action with
      | none => .null_action
      | some action =>
        if 0 = strcmp (bytes "add") (message.drop action) then
          if false = _load_module fork_ret then
            .returned true [cstr (message.drop module_alias)]
          else
            .returned true [cstr (message.drop module_alias)]
        else
          .returned true []

/-- The predicate `Ends message len s r`: started in state `s`, the loop is left
in state `r`, whatever fuel is given beyond the distance to `len`. -/
def Ends (message : List Nat) (len : Nat) (s r : Scan) : Prop :=
  ∀ fuel, len + 1 ≤ fuel + s.position → 0 < fuel →
    scanLoop message len fuel s = some r

/-- Neither comparison of the loop body succeeds on this suffix. -/
def NoKey (l : List Nat) : Prop :=
  0 ≠ strncmp (bytes "MODALIAS=") l (STRLEN (bytes "MODALIAS=")) ∧
  0 ≠ strncmp (bytes "ACTION=") l (STRLEN (bytes "ACTION="))

/-- The bytes received for a message `path@tail NUL ACTION=a NUL MODALIAS=m NUL`. -/
def uevent (path tail a m : List Nat) : List Nat :=
  path ++ 64 :: tail ++ 0 :: bytes "ACTION=" ++ a ++ 0 :: bytes "MODALIAS=" ++ m ++ [0]

/-- The bytes received for a message `path@ACTION=a NUL MODALIAS=m NUL`, with
no NUL between the `@` and the first record. -/
def uevent_joined (path a m : List Nat) : List Nat :=
  path ++ 64 :: bytes "ACTION=" ++ a ++ 0 :: bytes "MODALIAS=" ++ m ++ [0]

/-! ## `_handle_existing_device` -/

/-- The file name `MODULE_ALIAS_FILE_NAME`. -/
def MODULE_ALIAS_FILE_NAME : List Nat := bytes "modalias"

/-- One directory entry handed to the callback, with what the system calls made
for it return: `module_alias` is the array of that name once `read` has
returned, its first `read_ret` bytes being the bytes read.  The path built by
`sprintf` only serves to open the file and is left out. -/
structure DirEntry where
  d_name : List Nat
  open_ret : Int
  read_ret : Int
  module_alias : List Nat
  fork_ret : Int
deriving DecidableEq, Repr

/-- The function `_handle_existing_device`: the flag `should_stop` it returns and
the aliases it called `_load_module` with. -/
def _handle_existing_device (entry : DirEntry) : Bool × List (List Nat) :=
  if 0 ≠ strcmp MODULE_ALIAS_FILE_NAME entry.d_name then (false, [])
  else if -1 = entry.open_ret then (true, [])
  else if 0 ≥ entry.read_ret then (true, [])
  else
    let module_alias := entry.module_alias.set (entry.read_ret - 1).toNat 0
    let _ignored := _load_module entry.fork_ret
    (false, [cstr module_alias])

/-- Modelled from the spec: the directory walk `file_for_each` of liblazy, which
is not among the sources.  It calls the callback on each entry in traversal
order until the callback returns stop, and reports whether it was stopped. -/
def file_for_each : List DirEntry → Bool × List (List Nat)
  | [] => (false, [])
  | entry :: rest =>
    let r := _handle_existing_device entry
    if r.1 then (true, r.2)
    else ((file_for_each rest).1, r.2 ++ (file_for_each rest).2)

/-- The function `_handle_existing_devices`. -/
def _handle_existing_devices (sysfs : List DirEntry) : Bool × List (List Nat) :=
  file_for_each sysfs

/-! ## `main` -/

def EXIT_SUCCESS : Nat := 0

def EXIT_FAILURE : Nat := 1

def SIGTERM : Int := 15

def SIGCHLD : Int := 17

def EAGAIN : Int := 11

/-- Results of the calls `main` makes before its loop, in program order. -/
structure Startup where
  argc : Int
  sigemptyset_action : Int
  sigaction : Int
  sigemptyset_mask : Int
  sigaddset_io : Int
  sigaddset_chld : Int
  sigaddset_term : Int
  sigprocmask : Int
  socket : Int
  bind : Int
  daemonize : Bool
  file_enable_async_io : Bool
  sysfs : List DirEntry
  buffer : List Nat

/-- What `recv` did: it failed with `errno`, or stored `data` at the start of
the buffer and returned its length (at most the size of the buffer minus one,
which is what `main` asks for, so that the terminator fits). -/
inductive Recv where
  | failed (errno : Int)
  | received (data : List Nat)
deriving DecidableEq, Repr

/-- One turn of the wait loop: what `sigwait` returned and delivered, and what
`recv` and `fork` return if that turn calls them. -/
structure Event where
  sigwait_ret : Int
  received_signal : Int
  recv : Recv
  fork_ret : Int
deriving DecidableEq, Repr

/-- What `main` does in its loop, besides waiting. -/
inductive Act where
  | recv
  | handle (message : List Nat) (len : Nat) (result : Handled)
deriving DecidableEq, Repr

/-- How a run of `main` over the turns given stands at its end. -/
inductive Outcome where
  /-- The function `main` returned `exit_code`. -/
  | exited (exit_code : Nat)
  /-- The turns given are used up and the daemon waits in `sigwait`. -/
  | waiting
  /-- A call of `_handle_new_device` did not return: it reached `strcmp` with
  a NULL `action`, after which the C program has no defined behaviour. -/
  | undefined
deriving DecidableEq, Repr

/-- Put `acts` before the acts of a run. -/
def after (acts : List Act) (r : Outcome × List Act) : Outcome × List Act :=
  (r.1, acts ++ r.2)

/-- The wait loop of `main` (lines 276-314) over the turns given: how the run
stands at its end, and the acts in order.  The value `_handle_new_device`
returns is discarded, as in the source. -/
def waitLoop : List Event → List Nat → Outcome × List Act
  | [], _ => (.waiting, [])
  | e :: es, buffer =>
    if 0 ≠ e.sigwait_ret then (.exited EXIT_FAILURE, [])
    else if e.received_signal = SIGTERM then (.exited EXIT_SUCCESS, [])
    else if e.received_signal = SIGCHLD then waitLoop es buffer
    else
      match e.recv with
      | .failed errno =>
        if EAGAIN ≠ errno then (.exited EXIT_FAILURE, [.recv])
        else after [.recv] (waitLoop es buffer)
      | .received data =>
        let message_size := data.length
        let buffer1 := data ++ buffer.drop message_size
        if message_size = 0 then after [.recv] (waitLoop es buffer1)
        else
          let buffer2 := buffer1.set message_size 0
          match _handle_new_device e.fork_ret buffer2 message_size with
          | .returned is_success loaded =>
            after [.recv, .handle buffer2 message_size (.returned is_success loaded)]
              (waitLoop es buffer2)
          | result => (.undefined, [.recv, .handle buffer2 message_size result])

/-- The function `main`: how the run stands at its end and the acts of the
loop. -/
def main (st : Startup) (events : List Event) : Outcome × List Act :=
  if 1 ≠ st.argc then (.exited EXIT_FAILURE, [])
  else if -1 = st.sigemptyset_action then (.exited EXIT_FAILURE, [])
  else if -1 = st.sigaction then (.exited EXIT_FAILURE, [])
  else if -1 = st.sigemptyset_mask then (.exited EXIT_FAILURE, [])
  else if -1 = st.sigaddset_io then (.exited EXIT_FAILURE, [])
  else if -1 = st.sigaddset_chld then (.exited EXIT_FAILURE, [])
  else if -1 = st.sigaddset_term then (.exited EXIT_FAILURE, [])
  else if -1 = st.sigprocmask then (.exited EXIT_FAILURE, [])
  else if -1 = st.socket then (.exited EXIT_FAILURE, [])
  else if -1 = st.bind then (.exited EXIT_FAILURE, [])
  else if false = st.daemonize then (.exited EXIT_FAILURE, [])
  else if false = st.file_enable_async_io then (.exited EXIT_FAILURE, [])
  else if true = (_handle_existing_devices st.sysfs).1 then (.exited EXIT_FAILURE, [])
  else waitLoop events st.buffer

/-- Every call before the loop succeeds and the cold-plug scan is not stopped. -/
def Startup.ok (st : Startup) : Prop :=
  st.argc = 1 ∧ st.sigemptyset_action ≠ -1 ∧ st.sigaction ≠ -1 ∧
  st.sigemptyset_mask ≠ -1 ∧ st.sigaddset_io ≠ -1 ∧ st.sigaddset_chld ≠ -1 ∧
  st.sigaddset_term ≠ -1 ∧ st.sigprocmask ≠ -1 ∧ st.socket ≠ -1 ∧ st.bind ≠ -1 ∧
  st.daemonize = true ∧ st.file_enable_async_io = true ∧
  (_handle_existing_devices st.sysfs).1 = false

/-- The turn in which `sigwait` delivers SIGTERM. -/
def Event.terminates (e : Event) : Prop :=
  e.sigwait_ret = 0 ∧ e.received_signal = SIGTERM

/-- A turn in which `sigwait` fails, or `recv` is called and fails with an
errno other than EAGAIN. -/
def Event.fatal (e : Event) : Prop :=
  e.sigwait_ret ≠ 0 ∨
  (e.received_signal ≠ SIGTERM ∧ e.received_signal ≠ SIGCHLD ∧
    ∃ errno, e.recv = .failed errno ∧ errno ≠ EAGAIN)

/-- A turn that by itself does not end the loop: a SIGCHLD, or another signal
followed by a `recv` that returns EAGAIN, nothing, or a message. -/
def Event.benign (e : Event) : Prop :=
  e.sigwait_ret = 0 ∧ e.received_signal ≠ SIGTERM ∧
  (e.received_signal = SIGCHLD ∨ e.recv = .failed EAGAIN ∨ ∃ data, e.recv = .received data)

/-- A turn with a SIGCHLD, with a `recv` that returns EAGAIN, or with a
zero-length `recv`. -/
def Event.idle (e : Event) : Prop :=
  e.sigwait_ret = 0 ∧
  (e.received_signal = SIGCHLD ∨
    (e.received_signal ≠ SIGTERM ∧ (e.recv = .failed EAGAIN ∨ e.recv = .received [])))

/-! ## Sample inputs -/

/-- A walk over a "modalias" file (with `fork` failing), a "uevent" file and
another "modalias" file. -/
def sysfs_example : List DirEntry :=
  [⟨bytes "modalias\x00", 3, 7, bytes "usb:v1\n", -1⟩,
   ⟨bytes "uevent\x00", -1, -1, [], 0⟩,
   ⟨bytes "modalias\x00", 3, 7, bytes "pci:v2\n", 100⟩]

/-- A start of `main` in which every call succeeds. -/
def startup_example : Startup :=
  { argc := 1, sigemptyset_action := 0, sigaction := 0, sigemptyset_mask := 0,
    sigaddset_io := 0, sigaddset_chld := 0, sigaddset_term := 0, sigprocmask := 0,
    socket := 3, bind := 0, daemonize := true, file_enable_async_io := true,
    sysfs := sysfs_example, buffer := List.replicate 64 170 }

/-- A turn in which SIGCHLD is delivered. -/
def sigchld_turn : Event := ⟨0, SIGCHLD, .failed 0, 0⟩

/-- A turn in which the I/O signal (34) is delivered and `recv` returns EAGAIN. -/
def eagain_turn : Event := ⟨0, 34, .failed EAGAIN, 0⟩

/-- A turn in which the I/O signal is delivered and `recv` returns a message. -/
def uevent_turn : Event :=
  ⟨0, 34, .received (bytes "add@/devices/x\x00ACTION=add\x00MODALIAS=usb:v1\x00"), 100⟩

/-- A turn in which SIGTERM is delivered. -/
def sigterm_turn : Event := ⟨0, SIGTERM, .failed 0, 0⟩

/-- A turn in which the I/O signal is delivered and `recv` returns a message
with a MODALIAS record and no ACTION record. -/
def modalias_only_turn : Event := ⟨0, 34, .received (bytes "x@\x00MODALIAS=a\x00"), 100⟩

/-! ## Lemmas on C strings -/

theorem bytes_MODALIAS : bytes "MODALIAS=" = [77, 79, 68, 65, 76, 73, 65, 83, 61] := by decide

theorem bytes_ACTION : bytes "ACTION=" = [65, 67, 84, 73, 79, 78, 61] := by decide

theorem bytes_add : bytes "add" = [97, 100, 100] := by decide

theorem bytes_modalias : bytes "modalias" = [109, 111, 100, 97, 108, 105, 97, 115] := by decide

theorem cstr_nil : cstr [] = [] := rfl

theorem cstr_cons (b : Nat) (l : List Nat) :
    cstr (b :: l) = if b = 0 then [] else b :: cstr l := by
  by_cases h : b = 0 <;> simp [cstr, List.takeWhile_cons, h]

theorem cstr_append_nul (u t : List Nat) (hu : ∀ x ∈ u, x ≠ 0) :
    cstr (u ++ 0 :: t) = u := by
  induction u with
  | nil => simp [cstr_cons]
  | cons b u ih =>
    have hb : b ≠ 0 := hu b (by simp)
    have := ih (fun x hx => hu x (by simp [hx]))
    simp [cstr_cons, hb, this]

theorem strlenFrom_append_nul (u t : List Nat) (hu : ∀ x ∈ u, x ≠ 0) :
    strlenFrom (u ++ 0 :: t) = u.length := by
  induction u with
  | nil => simp [strlenFrom]
  | cons b u ih =>
    have hb : b ≠ 0 := hu b (by simp)
    have := ih (fun x hx => hu x (by simp [hx]))
    simp [strlenFrom, hb, this]
    omega

theorem strchrFrom_none (u t : List Nat) (c i : Nat) (hc : c ≠ 0)
    (hu : ∀ x ∈ u, x ≠ c ∧ x ≠ 0) : strchrFrom (u ++ 0 :: t) c i = none := by
  induction u generalizing i with
  | nil => simp [strchrFrom, Ne.symm hc]
  | cons b u ih =>
    have hb := hu b (by simp)
    have := ih (i + 1) (fun x hx => hu x (by simp [hx]))
    simp [strchrFrom, hb.1, hb.2, this]

theorem strchrFrom_some (u t : List Nat) (c i : Nat)
    (hu : ∀ x ∈ u, x ≠ c ∧ x ≠ 0) : strchrFrom (u ++ c :: t) c i = some (i + u.length) := by
  induction u generalizing i with
  | nil => simp [strchrFrom]
  | cons b u ih =>
    have hb := hu b (by simp)
    have := ih (i + 1) (fun x hx => hu x (by simp [hx]))
    simp [strchrFrom, hb.1, hb.2, this]
    omega

theorem strchrFrom_not_mem (l : List Nat) (c i : Nat) (h : c ∉ l) :
    strchrFrom l c i = none := by
  induction l generalizing i with
  | nil => rfl
  | cons b l ih =>
    have hb : b ≠ c := fun e => h (by simp [e])
    have := ih (i + 1) (fun hx => h (by simp [hx]))
    by_cases h0 : b = 0
    · subst h0
      simp [strchrFrom, hb]
    · simp [strchrFrom, hb, h0, this]

/-- A comparison by `strncmp` over the whole length of a literal without NUL
succeeds exactly when the other string starts with the literal. -/
theorem strncmp_literal (lit l : List Nat) (hlit : ∀ x ∈ lit, x ≠ 0) :
    0 = strncmp lit l lit.length ↔ ∃ t, l = lit ++ t := by
  induction lit generalizing l with
  | nil => simp [strncmp]
  | cons a lit ih =>
    have ha : a ≠ 0 := hlit a (by simp)
    have ih1 := fun l => ih l (fun x hx => hlit x (by simp [hx]))
    cases l with
    | nil =>
      simp [strncmp, ha]
      omega
    | cons b l =>
      by_cases hab : a = b
      · subst hab
        simp [strncmp, ha, ih1]
      · simp [strncmp, hab]
        omega

/-- Comparing with a literal without NUL by `strcmp` succeeds exactly when the
other string is the literal. -/
theorem strcmp_literal (lit l : List Nat) (hlit : ∀ x ∈ lit, x ≠ 0) :
    0 = strcmp lit l ↔ cstr l = lit := by
  induction lit generalizing l with
  | nil =>
    cases l with
    | nil => simp [strcmp, cstr_nil]
    | cons b l =>
      by_cases hb : b = 0
      · simp [strcmp, cstr_cons, hb]
      · simp [strcmp, cstr_cons, hb]
  | cons a lit ih =>
    have ha : a ≠ 0 := hlit a (by simp)
    have ih1 := fun l => ih l (fun x hx => hlit x (by simp [hx]))
    cases l with
    | nil =>
      simp [strcmp, cstr_nil, ha]
      omega
    | cons b l =>
      by_cases hab : a = b
      · subst hab
        simp [strcmp, cstr_cons, ha, ih1]
      · by_cases hb : b = 0
        · simp [strcmp, cstr_cons, hab, hb]
          omega
        · simp [strcmp, cstr_cons, hab, hb]
          constructor
          · intro h; omega
          · intro h; exact absurd h.1.symm hab

/-! ## The scan loop -/

theorem scanBody_position_lt (message : List Nat) (s : Scan) :
    s.position < (scanBody message s).position := by
  unfold scanBody
  split
  · simp
  · split_ifs <;> simp

/-- With fuel beyond the distance to `len` the loop is left. -/
theorem scanLoop_some (message : List Nat) (len fuel : Nat) (s : Scan)
    (hf : len + 1 ≤ fuel + s.position) (h0 : 0 < fuel) :
    ∃ r, scanLoop message len fuel s = some r := by
  induction fuel generalizing s with
  | zero => omega
  | succ fuel ih =>
    have hlt := scanBody_position_lt message s
    unfold scanLoop
    by_cases hc : len ≥ (scanBody message s).position
    · simp only [hc, if_true]
      exact ih _ (by omega) (by omega)
    · simp only [hc, if_false]
      exact ⟨_, rfl⟩

/-- The scan never runs out of fuel: the loop of `_handle_new_device`
terminates on every buffer and every length. -/
theorem scan_ne_none (message : List Nat) (len : Nat) : scan message len ≠ none := by
  unfold scan
  split
  · simp
  · rename_i position _
    obtain ⟨r, hr⟩ := scanLoop_some message len (len + 1) ⟨position, none, none⟩
      (by simp) (by omega)
    simp [hr]

theorem handle_ne_no_fuel (fork_ret : Int) (message : List Nat) (len : Nat) :
    _handle_new_device fork_ret message len ≠ .no_fuel := by
  have h := scan_ne_none message len
  unfold _handle_new_device
  split
  · contradiction
  · simp
  · split
    · simp
    · split
      · simp
      · split_ifs <;> simp

theorem Ends.step {message : List Nat} {len : Nat} {s r : Scan}
    (hle : (scanBody message s).position ≤ len)
    (h : Ends message len (scanBody message s) r) : Ends message len s r := by
  intro fuel hf h0
  have hlt := scanBody_position_lt message s
  obtain ⟨f, rfl⟩ : ∃ f, fuel = f + 1 := ⟨fuel - 1, by omega⟩
  unfold scanLoop
  simp only [ge_iff_le, hle, if_true]
  exact h f (by omega) (by omega)

theorem Ends.stop {message : List Nat} {len : Nat} {s : Scan}
    (hgt : len < (scanBody message s).position) :
    Ends message len s (scanBody message s) := by
  intro fuel hf h0
  obtain ⟨f, rfl⟩ : ∃ f, fuel = f + 1 := ⟨fuel - 1, by omega⟩
  unfold scanLoop
  have : ¬ (scanBody message s).position ≤ len := by omega
  simp only [ge_iff_le, this, if_false]

/-- The scan of a message whose `@` is at `position`, once the loop is known
to end in `r`. -/
theorem scan_of_ends (message : List Nat) (len position : Nat) (r : Scan)
    (hat : strchr message 0 64 = some position)
    (h : Ends message len ⟨position, none, none⟩ r) :
    scan message len = some (some r) := by
  unfold scan
  rw [hat]
  simp [h (len + 1) (by simp) (by omega)]

/-! ## The loop body on a record -/

theorem drop_add_of_drop {l x y : List Nat} {p : Nat} (h : l.drop p = x ++ y) :
    l.drop (p + x.length) = y := by
  have h1 : l.drop (p + x.length) = (l.drop p).drop x.length := by
    rw [List.drop_drop, Nat.add_comm]
  rw [h1, h, List.drop_left]

theorem drop_add_of_le {l u t : List Nat} {p : Nat} (h : l.drop p = u ++ t) (j : Nat)
    (hj : j ≤ u.length) : l.drop (p + j) = u.drop j ++ t := by
  have h1 : l.drop (p + j) = (l.drop p).drop j := by
    rw [List.drop_drop, Nat.add_comm]
  rw [h1, h, List.drop_append_of_le_length hj]

/-- The first occurrence of a byte splits a list. -/
theorem split_first (u : List Nat) (c : Nat) (h : c ∈ u) :
    ∃ k v, u = k ++ c :: v ∧ c ∉ k := by
  induction u with
  | nil => simp at h
  | cons b u ih =>
    by_cases hb : b = c
    · exact ⟨[], u, by simp [hb], by simp⟩
    · have hu : c ∈ u := by
        rcases List.mem_cons.mp h with e | e
        · exact absurd e.symm hb
        · exact e
      obtain ⟨k, v, huv, hk⟩ := ih hu
      refine ⟨b :: k, v, by simp [huv], ?_⟩
      simp only [List.mem_cons, not_or]
      exact ⟨fun e => hb e.symm, hk⟩

/-- A token without `=` is stepped over. -/
theorem scanBody_no_delimeter (message u post : List Nat) (p : Nat) (a m : Option Nat)
    (hd : message.drop p = u ++ 0 :: post) (hu : ∀ x ∈ u, x ≠ 61 ∧ x ≠ 0) :
    scanBody message ⟨p, a, m⟩ = ⟨p + (1 + u.length), a, m⟩ := by
  have h1 : strchr message p 61 = none := by
    unfold strchr
    rw [hd]
    exact strchrFrom_none u post 61 p (by decide) hu
  have h2 : strlen message p = u.length := by
    unfold strlen
    rw [hd]
    exact strlenFrom_append_nul u post (fun x hx => (hu x hx).2)
  simp [scanBody, h1, h2]

/-- At a token with a `=` whose start is no recognised key, the position moves
on by the length of the text from the `=` on, plus one. -/
theorem scanBody_other (message k v post : List Nat) (p : Nat) (a m : Option Nat)
    (hd : message.drop p = k ++ 61 :: (v ++ 0 :: post))
    (hk : ∀ x ∈ k, x ≠ 61 ∧ x ≠ 0) (hv : ∀ x ∈ v, x ≠ 0)
    (hno : NoKey (message.drop p)) :
    scanBody message ⟨p, a, m⟩ = ⟨p + (1 + (1 + v.length)), a, m⟩ := by
  have h1 : strchr message p 61 = some (p + k.length) := by
    unfold strchr
    rw [hd]
    exact strchrFrom_some k _ 61 p hk
  have h2 : strlen message (p + k.length) = 1 + v.length := by
    unfold strlen
    rw [drop_add_of_drop hd]
    simp [strlenFrom, strlenFrom_append_nul v post hv]
  obtain ⟨hM, hA⟩ := hno
  simp only [scanBody, h1, h2]
  rw [if_neg hM, if_neg hA]

/-- At a token that starts with MODALIAS= the pointer to the value is kept and
the position moves on by the length of the value plus one. -/
theorem scanBody_MODALIAS (message v post : List Nat) (p : Nat) (a m : Option Nat)
    (hd : message.drop p = bytes "MODALIAS=" ++ (v ++ 0 :: post)) (hv : ∀ x ∈ v, x ≠ 0) :
    scanBody message ⟨p, a, m⟩ = ⟨p + (1 + v.length), a, some (p + 9)⟩ := by
  have hd1 : message.drop p = bytes "MODALIAS" ++ 61 :: (v ++ 0 :: post) := by
    rw [hd]; rfl
  have h1 : strchr message p 61 = some (p + 8) := by
    unfold strchr
    rw [hd1]
    exact strchrFrom_some (bytes "MODALIAS") _ 61 p (by decide)
  have h2 : strlen message (p + 8 + 1) = v.length := by
    unfold strlen
    have := drop_add_of_drop hd
    rw [show (bytes "MODALIAS=").length = 8 + 1 from rfl, ← Nat.add_assoc] at this
    rw [this]
    exact strlenFrom_append_nul v post hv
  have hM : 0 = strncmp (bytes "MODALIAS=") (message.drop p) (STRLEN (bytes "MODALIAS=")) :=
    (strncmp_literal _ _ (by decide)).mpr ⟨_, hd⟩
  simp only [scanBody, h1, h2]
  rw [if_pos hM]

/-- At a token that starts with ACTION= the pointer to the value is kept and the
position moves on by the length of the value plus one. -/
theorem scanBody_ACTION (message v post : List Nat) (p : Nat) (a m : Option Nat)
    (hd : message.drop p = bytes "ACTION=" ++ (v ++ 0 :: post)) (hv : ∀ x ∈ v, x ≠ 0) :
    scanBody message ⟨p, a, m⟩ = ⟨p + (1 + v.length), some (p + 7), m⟩ := by
  have hd1 : message.drop p = bytes "ACTION" ++ 61 :: (v ++ 0 :: post) := by
    rw [hd]; rfl
  have h1 : strchr message p 61 = some (p + 6) := by
    unfold strchr
    rw [hd1]
    exact strchrFrom_some (bytes "ACTION") _ 61 p (by decide)
  have h2 : strlen message (p + 6 + 1) = v.length := by
    unfold strlen
    have := drop_add_of_drop hd
    rw [show (bytes "ACTION=").length = 6 + 1 from rfl, ← Nat.add_assoc] at this
    rw [this]
    exact strlenFrom_append_nul v post hv
  have hM : ¬ 0 = strncmp (bytes "MODALIAS=") (message.drop p) (STRLEN (bytes "MODALIAS=")) := by
    intro h
    obtain ⟨t, ht⟩ := (strncmp_literal _ _ (by decide)).mp h
    rw [hd, bytes_ACTION, bytes_MODALIAS] at ht
    simp at ht
  have hA : 0 = strncmp (bytes "ACTION=") (message.drop p) (STRLEN (bytes "ACTION=")) :=
    (strncmp_literal _ _ (by decide)).mpr ⟨_, hd⟩
  simp only [scanBody, h1, h2]
  rw [if_neg hM, if_pos hA]

/-! ## Walking through the rest of a record -/

/-- From any place in a record none of whose suffixes starts with a recognised
key, the loop reaches the start of the next record with both pointers
unchanged.  (The position moves by the length of the value, not to the end of
the record, so it may take several turns.) -/
theorem Ends.skip (message post : List Nat) (len : Nat) (a m : Option Nat) (r : Scan)
    (n : Nat) : ∀ (u : List Nat) (p : Nat), u.length ≤ n →
    message.drop p = u ++ 0 :: post → (∀ x ∈ u, x ≠ 0) →
    p + u.length + 1 ≤ len →
    (∀ j, j ≤ u.length → NoKey (u.drop j ++ 0 :: post)) →
    Ends message len ⟨p + u.length + 1, a, m⟩ r →
    Ends message len ⟨p, a, m⟩ r := by
  induction n with
  | zero =>
    intro u p hn hd hu hlen _ h
    have hnil : u = [] := List.length_eq_zero.mp (by omega)
    subst hnil
    have hb := scanBody_no_delimeter message [] post p a m hd (by simp)
    apply Ends.step
    · rw [hb]; simpa using hlen
    · rw [hb]
      simpa [Nat.add_comm] using h
  | succ n ih =>
    intro u p hn hd hu hlen hno h
    by_cases hmem : 61 ∈ u
    · obtain ⟨k, v, huv, hk⟩ := split_first u 61 hmem
      have hk2 : ∀ x ∈ k, x ≠ 61 ∧ x ≠ 0 := fun x hx =>
        ⟨fun e => hk (e ▸ hx), hu x (by simp [huv, hx])⟩
      have hv : ∀ x ∈ v, x ≠ 0 := fun x hx => hu x (by simp [huv, hx])
      have hul : u.length = k.length + (v.length + 1) := by simp [huv]
      have hd2 : message.drop p = k ++ 61 :: (v ++ 0 :: post) := by
        rw [hd, huv]; simp
      have hno0 : NoKey (message.drop p) := by
        rw [hd]; simpa using hno 0 (by omega)
      have hb := scanBody_other message k v post p a m hd2 hk2 hv hno0
      by_cases hk0 : k.length = 0
      · apply Ends.step
        · rw [hb]; simp only; omega
        · rw [hb]
          have e : p + (1 + (1 + v.length)) = p + u.length + 1 := by omega
          rw [e]; exact h
      · have ht : v.length + 2 ≤ u.length := by omega
        have hd3 := drop_add_of_le hd (v.length + 2) ht
        have hlen3 : (u.drop (v.length + 2)).length = u.length - (v.length + 2) := by simp
        have e : p + (v.length + 2) + (u.drop (v.length + 2)).length + 1 = p + u.length + 1 := by
          omega
        apply Ends.step
        · rw [hb]; simp only; omega
        · rw [hb]
          have e2 : p + (1 + (1 + v.length)) = p + (v.length + 2) := by omega
          rw [e2]
          apply ih (u.drop (v.length + 2)) (p + (v.length + 2)) (by omega) hd3
            (fun x hx => hu x (List.mem_of_mem_drop hx)) (by omega)
          · intro j hj
            rw [List.drop_drop]
            have := hno (v.length + 2 + j) (by omega)
            simpa [Nat.add_comm, Nat.add_left_comm, Nat.add_assoc] using this
          · rw [e]; exact h
    · have hu2 : ∀ x ∈ u, x ≠ 61 ∧ x ≠ 0 := fun x hx =>
        ⟨fun e => hmem (e ▸ hx), hu x hx⟩
      have hb := scanBody_no_delimeter message u post p a m hd hu2
      apply Ends.step
      · rw [hb]; simp only; omega
      · rw [hb]
        have e : p + (1 + u.length) = p + u.length + 1 := by omega
        rw [e]; exact h

/-! ## Where a recognised key can be seen inside a record -/

/-- Two splittings of a list at its first `=` or NUL agree. -/
theorem first_mark_unique (k1 k2 t1 t2 : List Nat) (x y : Nat)
    (h : k1 ++ x :: t1 = k2 ++ y :: t2)
    (hx : x = 61 ∨ x = 0) (hy : y = 61 ∨ y = 0)
    (h1 : ∀ z ∈ k1, z ≠ 61 ∧ z ≠ 0) (h2 : ∀ z ∈ k2, z ≠ 61 ∧ z ≠ 0) :
    k1 = k2 ∧ x = y := by
  induction k1 generalizing k2 with
  | nil =>
    cases k2 with
    | nil => simp at h; exact ⟨rfl, h.1⟩
    | cons b k2 =>
      simp at h
      have hb := h2 b (by simp)
      rcases hx with e | e <;> omega
  | cons b k1 ih =>
    cases k2 with
    | nil =>
      simp at h
      have hb := h1 b (by simp)
      rcases hy with e | e <;> omega
    | cons c k2 =>
      simp at h
      obtain ⟨e, rest⟩ := ih k2 h.2 (fun z hz => h1 z (by simp [hz]))
        (fun z hz => h2 z (by simp [hz]))
      exact ⟨by rw [h.1, e], rest⟩

/-- Inside the record `K=v`, where neither `K` nor `v` has a `=` or a NUL, a
literal `L=` is seen at offset `j` only if `L` is the end of `K` from `j` on. -/
theorem key_seen_in_record (L K v post t : List Nat) (j : Nat)
    (hL : ∀ x ∈ L, x ≠ 61 ∧ x ≠ 0) (hK : ∀ x ∈ K, x ≠ 61 ∧ x ≠ 0)
    (hv : ∀ x ∈ v, x ≠ 61 ∧ x ≠ 0)
    (h : (K ++ 61 :: v).drop j ++ 0 :: post = L ++ 61 :: t) : K.drop j = L := by
  by_cases hjk : j ≤ K.length
  · rw [List.drop_append_of_le_length hjk, List.append_assoc] at h
    exact (first_mark_unique (K.drop j) L _ _ 61 61 h (by simp) (by simp)
      (fun z hz => hK z (List.mem_of_mem_drop hz)) hL).1
  · exfalso
    have hjk2 : K.length ≤ j := by omega
    obtain ⟨i, hi⟩ : ∃ i, j = K.length + (i + 1) := ⟨j - K.length - 1, by omega⟩
    have hdrop : (K ++ 61 :: v).drop j = v.drop i := by
      rw [hi, List.drop_append]
      simp
    rw [hdrop] at h
    have := (first_mark_unique (v.drop i) L _ _ 0 61 h (by simp) (by simp)
      (fun z hz => hv z (List.mem_of_mem_drop hz)) hL).2
    omega

/-- No recognised key is seen at offset `j` of the record `K=v` unless the end
of `K` from `j` on is that key. -/
theorem noKey_in_record (K v post : List Nat) (j : Nat)
    (hK : ∀ x ∈ K, x ≠ 61 ∧ x ≠ 0) (hv : ∀ x ∈ v, x ≠ 61 ∧ x ≠ 0)
    (hM : K.drop j ≠ bytes "MODALIAS") (hA : K.drop j ≠ bytes "ACTION") :
    NoKey ((K ++ 61 :: v).drop j ++ 0 :: post) := by
  constructor
  · intro h
    obtain ⟨t, ht⟩ := (strncmp_literal _ _ (by decide)).mp h
    have ht2 : (K ++ 61 :: v).drop j ++ 0 :: post = bytes "MODALIAS" ++ 61 :: t := by
      rw [ht]; rfl
    exact hM (key_seen_in_record _ K v post t j (by decide) hK hv ht2)
  · intro h
    obtain ⟨t, ht⟩ := (strncmp_literal _ _ (by decide)).mp h
    have ht2 : (K ++ 61 :: v).drop j ++ 0 :: post = bytes "ACTION" ++ 61 :: t := by
      rw [ht]; rfl
    exact hA (key_seen_in_record _ K v post t j (by decide) hK hv ht2)

theorem drop_ACTION_ne (j : Nat) (hj : 1 ≤ j) :
    (bytes "ACTION").drop j ≠ bytes "MODALIAS" ∧ (bytes "ACTION").drop j ≠ bytes "ACTION" := by
  have hl : ((bytes "ACTION").drop j).length = 6 - j := by
    rw [List.length_drop]; rfl
  constructor
  · intro e
    rw [e] at hl
    have : (bytes "MODALIAS").length = 8 := rfl
    omega
  · intro e
    rw [e] at hl
    have : (bytes "ACTION").length = 6 := rfl
    omega

theorem drop_MODALIAS_ne (j : Nat) (hj : 1 ≤ j) :
    (bytes "MODALIAS").drop j ≠ bytes "MODALIAS" ∧
    (bytes "MODALIAS").drop j ≠ bytes "ACTION" := by
  have hl : ((bytes "MODALIAS").drop j).length = 8 - j := by
    rw [List.length_drop]; rfl
  constructor
  · intro e
    rw [e] at hl
    have : (bytes "MODALIAS").length = 8 := rfl
    omega
  · intro e
    have h6 : (bytes "ACTION").length = 6 := rfl
    have hj2 : j = 2 := by
      rw [e] at hl
      omega
    subst hj2
    revert e
    decide

/-- From offset `t` of the record `K=v`, where no end of `K` from `t` or later
on is a recognised key, the loop reaches the start of the next record with
both pointers unchanged. -/
theorem Ends.rest_of_record (message K v post : List Nat) (len p t : Nat)
    (a m : Option Nat) (r : Scan)
    (hd : message.drop p = (K ++ 61 :: v) ++ 0 :: post)
    (hK : ∀ x ∈ K, x ≠ 61 ∧ x ≠ 0) (hv : ∀ x ∈ v, x ≠ 61 ∧ x ≠ 0)
    (hne : ∀ j, t ≤ j → K.drop j ≠ bytes "MODALIAS" ∧ K.drop j ≠ bytes "ACTION")
    (ht : t ≤ (K ++ 61 :: v).length)
    (hlen : p + (K ++ 61 :: v).length + 1 ≤ len)
    (h : Ends message len ⟨p + (K ++ 61 :: v).length + 1, a, m⟩ r) :
    Ends message len ⟨p + t, a, m⟩ r := by
  have hd2 := drop_add_of_le hd t ht
  have hl : ((K ++ 61 :: v).drop t).length = (K ++ 61 :: v).length - t := by simp
  have e : p + t + ((K ++ 61 :: v).drop t).length + 1 = p + (K ++ 61 :: v).length + 1 := by
    omega
  apply Ends.skip message post len a m r _ ((K ++ 61 :: v).drop t) (p + t) (le_refl _) hd2
  · intro x hx
    have hx2 := List.mem_of_mem_drop hx
    simp only [List.mem_append, List.mem_cons] at hx2
    rcases hx2 with h1 | h1 | h1
    · exact (hK x h1).2
    · omega
    · exact (hv x h1).2
  · omega
  · intro j _
    rw [List.drop_drop]
    have hj1 : t ≤ t + j := by omega
    have := noKey_in_record K v post (t + j) hK hv (hne _ hj1).1 (hne _ hj1).2
    simpa [Nat.add_comm] using this
  · rw [e]; exact h

/-- From the start of a last record `MODALIAS=m`, followed by the terminator at
`len`, the loop is left with the position at `len + 1` and the modalias
pointer at the value `m`. -/
theorem Ends.last_MODALIAS (message m stale : List Nat) (p : Nat) (a : Option Nat)
    (hd : message.drop p = (bytes "MODALIAS" ++ 61 :: m) ++ 0 :: 0 :: stale)
    (hm : ∀ x ∈ m, x ≠ 61 ∧ x ≠ 0) :
    Ends message (p + (9 + m.length) + 1) ⟨p, a, none⟩
      ⟨p + (9 + m.length) + 1 + 1, a, some (p + 9)⟩ := by
  have lM : (bytes "MODALIAS" ++ 61 :: m).length = 9 + m.length := by
    simp [List.length_append]; rw [show (bytes "MODALIAS").length = 8 from rfl]; omega
  have d3 : message.drop (p + (9 + m.length) + 1) = 0 :: stale := by
    have := drop_add_of_drop (x := (bytes "MODALIAS" ++ 61 :: m) ++ [0]) (y := 0 :: stale)
      (by rw [hd]; simp)
    have e : p + ((bytes "MODALIAS" ++ 61 :: m) ++ [0]).length = p + (9 + m.length) + 1 := by
      rw [List.length_append, lM]; simp only [List.length_cons, List.length_nil]; omega
    rw [e] at this
    exact this
  have b3 := scanBody_no_delimeter message [] stale (p + (9 + m.length) + 1)
    a (some (p + 9)) (by rw [d3]; rfl) (by simp)
  have E3 : Ends message (p + (9 + m.length) + 1) ⟨p + (9 + m.length) + 1, a, some (p + 9)⟩
      ⟨p + (9 + m.length) + 1 + 1, a, some (p + 9)⟩ := by
    have := @Ends.stop message (p + (9 + m.length) + 1)
      ⟨p + (9 + m.length) + 1, a, some (p + 9)⟩ (by rw [b3]; simp)
    rw [b3] at this
    simpa using this
  have b2 := scanBody_MODALIAS message m (0 :: stale) p a none
    (by rw [hd]; rfl) (fun x hx => (hm x hx).2)
  apply Ends.step
  · rw [b2]; simp only; omega
  · rw [b2]
    apply Ends.rest_of_record message (bytes "MODALIAS") m (0 :: stale) _ p (1 + m.length)
      _ _ _ hd (by decide) hm (fun j hj => drop_MODALIAS_ne j (by omega))
      (by rw [lM]; omega) (by rw [lM])
    rw [lM]
    exact E3

/-! ## Claims on `_handle_new_device` -/

/-- The final state of the scan of a message `path@tail NUL ACTION=a NUL
MODALIAS=m NUL`, terminated at `len`. -/
theorem scan_after_separator (path tail a m stale : List Nat)
    (hpath : ∀ x ∈ path, x ≠ 64 ∧ x ≠ 0)
    (htail : ∀ x ∈ tail, x ≠ 61 ∧ x ≠ 0)
    (ha : ∀ x ∈ a, x ≠ 61 ∧ x ≠ 0) (hm : ∀ x ∈ m, x ≠ 61 ∧ x ≠ 0) :
    scan (uevent path tail a m ++ 0 :: stale) (uevent path tail a m).length
      = some (some ⟨path.length + (1 + tail.length) + 1 + (7 + a.length) + 1
          + (9 + m.length) + 1 + 1,
        some (path.length + (1 + tail.length) + 1 + 7),
        some (path.length + (1 + tail.length) + 1 + (7 + a.length) + 1 + 9)⟩) := by
  unfold uevent
  set R2 : List Nat := (bytes "MODALIAS" ++ 61 :: m) ++ 0 :: 0 :: stale with hR2
  set R1 : List Nat := (bytes "ACTION" ++ 61 :: a) ++ 0 :: R2 with hR1
  set R0 : List Nat := (64 :: tail) ++ 0 :: R1 with hR0
  set p1 := path.length + (1 + tail.length) + 1 with hp1
  set p2 := p1 + (7 + a.length) + 1 with hp2
  have hmsg : path ++ 64 :: tail ++ 0 :: bytes "ACTION=" ++ a ++ 0 :: bytes "MODALIAS=" ++ m
        ++ [0] ++ 0 :: stale = path ++ R0 := by
    simp [hR0, hR1, hR2, bytes_ACTION, bytes_MODALIAS]
    rfl
  have hlen : (path ++ 64 :: tail ++ 0 :: bytes "ACTION=" ++ a ++ 0 :: bytes "MODALIAS=" ++ m
        ++ [0]).length = p2 + (9 + m.length) + 1 := by
    simp [hp2, hp1, bytes_ACTION, bytes_MODALIAS]
    omega
  rw [hmsg, hlen]
  have lA : (bytes "ACTION" ++ 61 :: a).length = 7 + a.length := by
    simp [List.length_append]; rw [show (bytes "ACTION").length = 6 from rfl]; omega
  have d0 : (path ++ R0).drop path.length = R0 := List.drop_left _ _
  have d1 : (path ++ R0).drop p1 = R1 := by
    have := drop_add_of_drop (x := (64 :: tail) ++ [0]) (y := R1) (p := path.length)
      (by rw [d0, hR0]; simp)
    have e : path.length + ((64 :: tail) ++ [0]).length = p1 := by
      simp only [hp1, List.length_append, List.length_cons, List.length_nil]; omega
    rw [e] at this
    exact this
  have d2 : (path ++ R0).drop p2 = R2 := by
    have := drop_add_of_drop (x := (bytes "ACTION" ++ 61 :: a) ++ [0]) (y := R2) (p := p1)
      (by rw [d1, hR1]; simp)
    have e : p1 + ((bytes "ACTION" ++ 61 :: a) ++ [0]).length = p2 := by
      rw [List.length_append, lA]; simp only [hp2, List.length_cons, List.length_nil]; omega
    rw [e] at this
    exact this
  have hat : strchr (path ++ R0) 0 64 = some path.length := by
    unfold strchr
    rw [List.drop_zero, hR0, List.cons_append]
    simpa using strchrFrom_some path (tail ++ 0 :: R1) 64 0 hpath
  apply scan_of_ends _ _ _ _ hat
  -- the MODALIAS record and the terminator
  have E2 := Ends.last_MODALIAS (path ++ R0) m stale p2 (some (p1 + 7)) (by rw [d2, hR2]) hm
  -- the ACTION record
  have b1 := scanBody_ACTION (path ++ R0) a R2 p1 none none
    (by rw [d1, hR1]; rfl) (fun x hx => (ha x hx).2)
  have E1 : Ends (path ++ R0) (p2 + (9 + m.length) + 1) ⟨p1, none, none⟩
      ⟨p2 + (9 + m.length) + 1 + 1, some (p1 + 7), some (p2 + 9)⟩ := by
    apply Ends.step
    · rw [b1]; simp only [hp2]; omega
    · rw [b1]
      apply Ends.rest_of_record (path ++ R0) (bytes "ACTION") a R2 _ p1 (1 + a.length)
        _ _ _ (by rw [d1, hR1]) (by decide) ha (fun j hj => drop_ACTION_ne j (by omega))
        (by rw [lA]; omega) (by rw [lA]; simp only [hp2]; omega)
      rw [lA]
      exact E2
  -- the token that starts at the `@`
  have b0 := scanBody_no_delimeter (path ++ R0) (64 :: tail) R1 path.length none none
    (by rw [d0, hR0]) (by
      intro x hx
      rcases List.mem_cons.mp hx with e | e
      · subst e; decide
      · exact htail x e)
  apply Ends.step
  · rw [b0]; simp only [hp2, hp1, List.length_cons]; omega
  · rw [b0]
    have e : path.length + (1 + (64 :: tail).length) = p1 := by
      simp only [hp1, List.length_cons]; omega
    rw [e]
    exact E1

theorem drop_at_ACTION_ne (j : Nat) (hj : j = 0 ∨ 2 ≤ j) :
    (64 :: bytes "ACTION").drop j ≠ bytes "MODALIAS" ∧
    (64 :: bytes "ACTION").drop j ≠ bytes "ACTION" := by
  have hl : ((64 :: bytes "ACTION").drop j).length = 7 - j := by
    rw [List.length_drop]; rfl
  constructor
  · intro e
    rw [e] at hl
    have : (bytes "MODALIAS").length = 8 := rfl
    omega
  · intro e
    rw [e] at hl
    have : (bytes "ACTION").length = 6 := rfl
    omega

/-- The final state of the scan of a message `path@ACTION=a NUL MODALIAS=m
NUL`, terminated at `len`: the first token is read from the `@` on, so the
action pointer stays NULL. -/
theorem scan_joined (path a m stale : List Nat)
    (hpath : ∀ x ∈ path, x ≠ 64 ∧ x ≠ 0)
    (ha : ∀ x ∈ a, x ≠ 61 ∧ x ≠ 0) (hm : ∀ x ∈ m, x ≠ 61 ∧ x ≠ 0) :
    scan (uevent_joined path a m ++ 0 :: stale) (uevent_joined path a m).length
      = some (some ⟨path.length + (8 + a.length) + 1 + (9 + m.length) + 1 + 1,
        none, some (path.length + (8 + a.length) + 1 + 9)⟩) := by
  unfold uevent_joined
  set R2 : List Nat := (bytes "MODALIAS" ++ 61 :: m) ++ 0 :: 0 :: stale with hR2
  set R0 : List Nat := ((64 :: bytes "ACTION") ++ 61 :: a) ++ 0 :: R2 with hR0
  set p2 := path.length + (8 + a.length) + 1 with hp2
  have hmsg : path ++ 64 :: bytes "ACTION=" ++ a ++ 0 :: bytes "MODALIAS=" ++ m
        ++ [0] ++ 0 :: stale = path ++ R0 := by
    simp [hR0, hR2, bytes_ACTION, bytes_MODALIAS]
    rfl
  have hlen : (path ++ 64 :: bytes "ACTION=" ++ a ++ 0 :: bytes "MODALIAS=" ++ m
        ++ [0]).length = p2 + (9 + m.length) + 1 := by
    simp [hp2, bytes_ACTION, bytes_MODALIAS]
    omega
  rw [hmsg, hlen]
  have lA : ((64 :: bytes "ACTION") ++ 61 :: a).length = 8 + a.length := by
    simp [List.length_append]; rw [show (bytes "ACTION").length = 6 from rfl]; omega
  have d0 : (path ++ R0).drop path.length = R0 := List.drop_left _ _
  have d2 : (path ++ R0).drop p2 = R2 := by
    have := drop_add_of_drop (x := ((64 :: bytes "ACTION") ++ 61 :: a) ++ [0]) (y := R2)
      (p := path.length) (by rw [d0, hR0]; simp)
    have e : path.length + (((64 :: bytes "ACTION") ++ 61 :: a) ++ [0]).length = p2 := by
      rw [List.length_append, lA]; simp only [hp2, List.length_cons, List.length_nil]; omega
    rw [e] at this
    exact this
  have hat : strchr (path ++ R0) 0 64 = some path.length := by
    unfold strchr
    rw [List.drop_zero, hR0]
    simpa using strchrFrom_some path (bytes "ACTION" ++ 61 :: a ++ 0 :: R2) 64 0 hpath
  apply scan_of_ends _ _ _ _ hat
  have E2 := Ends.last_MODALIAS (path ++ R0) m stale p2 none (by rw [d2, hR2]) hm
  have hK : ∀ x ∈ 64 :: bytes "ACTION", x ≠ 61 ∧ x ≠ 0 := by decide
  have hno : NoKey ((path ++ R0).drop path.length) := by
    have := noKey_in_record (64 :: bytes "ACTION") a R2 0 hK ha
      (drop_at_ACTION_ne 0 (Or.inl rfl)).1 (drop_at_ACTION_ne 0 (Or.inl rfl)).2
    rw [d0, hR0]
    simpa using this
  have b0 := scanBody_other (path ++ R0) (64 :: bytes "ACTION") a R2 path.length none none
    (by rw [d0, hR0]; simp) hK (fun x hx => (ha x hx).2) hno
  apply Ends.step
  · rw [b0]; simp only [hp2]; omega
  · rw [b0]
    apply Ends.rest_of_record (path ++ R0) (64 :: bytes "ACTION") a R2 _ path.length
      (1 + (1 + a.length)) _ _ _ (by rw [d0, hR0]) hK ha
      (fun j hj => drop_at_ACTION_ne j (Or.inr (by omega)))
      (by rw [lA]; omega) (by rw [lA]; simp only [hp2]; omega)
    rw [lA]
    exact E2

/-- Claim C1, as amended.  For every buffer `path@tail NUL ACTION=a NUL
MODALIAS=m NUL` terminated at index `len`, where `path` has no `@` or NUL, the
text `tail` between the `@` and the first NUL has no `=` (it may be empty) and
`a` and `m` have no `=` or NUL, the parser inside `_handle_new_device` yields
action `a` and modalias `m`, and `_load_module` is called, with `m`, exactly
when `a` is "add". -/
theorem parse_after_separator (path tail a m stale : List Nat) (fork_ret : Int)
    (hpath : ∀ x ∈ path, x ≠ 64 ∧ x ≠ 0)
    (htail : ∀ x ∈ tail, x ≠ 61 ∧ x ≠ 0)
    (ha : ∀ x ∈ a, x ≠ 61 ∧ x ≠ 0) (hm : ∀ x ∈ m, x ≠ 61 ∧ x ≠ 0) :
    parse (uevent path tail a m ++ 0 :: stale) (uevent path tail a m).length
      = some ⟨some a, some m⟩ ∧
    _handle_new_device fork_ret (uevent path tail a m ++ 0 :: stale)
        (uevent path tail a m).length
      = .returned true (if a = bytes "add" then [m] else []) := by
  have hs := scan_after_separator path tail a m stale hpath htail ha hm
  have hmsg : uevent path tail a m ++ 0 :: stale
      = (path ++ 64 :: tail ++ [0]) ++ (bytes "ACTION=" ++ (a ++ 0 ::
          ((bytes "MODALIAS=" ++ (m ++ 0 :: 0 :: stale))))) := by
    simp [uevent]
  have l0 : (path ++ 64 :: tail ++ [0]).length = path.length + (1 + tail.length) + 1 := by
    simp; omega
  have dA : (uevent path tail a m ++ 0 :: stale).drop (path.length + (1 + tail.length) + 1 + 7)
      = a ++ 0 :: (bytes "MODALIAS=" ++ (m ++ 0 :: 0 :: stale)) := by
    have h1 := drop_add_of_drop (l := uevent path tail a m ++ 0 :: stale)
      (x := path ++ 64 :: tail ++ [0]) (p := 0) (by rw [List.drop_zero, hmsg])
    rw [Nat.zero_add, l0] at h1
    exact drop_add_of_drop (x := bytes "ACTION=") h1
  have dM : (uevent path tail a m ++ 0 :: stale).drop
      (path.length + (1 + tail.length) + 1 + (7 + a.length) + 1 + 9) = m ++ 0 :: 0 :: stale := by
    have h2 := drop_add_of_drop (x := a ++ [0]) (y := bytes "MODALIAS=" ++ (m ++ 0 :: 0 :: stale))
      (by rw [dA]; simp)
    have h3 := drop_add_of_drop (x := bytes "MODALIAS=") h2
    have e : path.length + (1 + tail.length) + 1 + 7 + (a ++ [0]).length
        + (bytes "MODALIAS=").length
        = path.length + (1 + tail.length) + 1 + (7 + a.length) + 1 + 9 := by
      rw [show (bytes "MODALIAS=").length = 9 from rfl]
      simp only [List.length_append, List.length_cons, List.length_nil]
      omega
    rw [e] at h3
    exact h3
  have cA := cstr_append_nul a (bytes "MODALIAS=" ++ (m ++ 0 :: 0 :: stale))
    (fun x hx => (ha x hx).2)
  have cM := cstr_append_nul m (0 :: stale) (fun x hx => (hm x hx).2)
  constructor
  · simp only [parse, hs, Option.map_some', dA, dM, cA, cM]
  · have hadd : (0 = strcmp (bytes "add") (a ++ 0 :: (bytes "MODALIAS=" ++ (m ++ 0 :: 0 :: stale))))
        ↔ a = bytes "add" := by
      rw [strcmp_literal _ _ (by decide), cA]
    simp only [_handle_new_device, hs, dA, dM, cM]
    by_cases h : a = bytes "add"
    · rw [if_pos (hadd.mpr h), if_pos h]
      split_ifs <;> rfl
    · rw [if_neg (fun e => h (hadd.mp e)), if_neg h]

/-- The amended claim C1 at the message
"/devices/foo@" NUL "ACTION=add" NUL "MODALIAS=bar:baz" NUL. -/
theorem parse_after_separator_witness :
    ((∀ x ∈ bytes "/devices/foo", x ≠ 64 ∧ x ≠ 0) ∧
      (∀ x ∈ bytes "add", x ≠ 61 ∧ x ≠ 0) ∧ (∀ x ∈ bytes "bar:baz", x ≠ 61 ∧ x ≠ 0)) ∧
    (parse (uevent (bytes "/devices/foo") [] (bytes "add") (bytes "bar:baz") ++ 0 :: [])
        (uevent (bytes "/devices/foo") [] (bytes "add") (bytes "bar:baz")).length
      = some ⟨some (bytes "add"), some (bytes "bar:baz")⟩ ∧
    _handle_new_device 100
        (uevent (bytes "/devices/foo") [] (bytes "add") (bytes "bar:baz") ++ 0 :: [])
        (uevent (bytes "/devices/foo") [] (bytes "add") (bytes "bar:baz")).length
      = .returned true (if bytes "add" = bytes "add" then [bytes "bar:baz"] else [])) :=
  ⟨⟨by decide, by decide, by decide⟩,
    parse_after_separator (bytes "/devices/foo") [] (bytes "add") (bytes "bar:baz") [] 100
      (by decide) (by simp) (by decide) (by decide)⟩

/-- Claim C1 fails as stated: for "/devices/foo@ACTION=add" NUL
"MODALIAS=bar:baz" NUL, terminated at index 41, the scan starts at the `@`, so
the first token is "@ACTION=add" and no action is extracted; the modalias is
"bar:baz" and `strcmp` is reached with a NULL action instead of `_load_module`
being called. -/
theorem parse_action_after_at_counterexample :
    parse (bytes "/devices/foo@ACTION=add\x00MODALIAS=bar:baz\x00" ++ [0]) 41
      = some ⟨none, some (bytes "bar:baz")⟩ ∧
    parse (bytes "/devices/foo@ACTION=add\x00MODALIAS=bar:baz\x00" ++ [0]) 41
      ≠ some ⟨some (bytes "add"), some (bytes "bar:baz")⟩ ∧
    _handle_new_device 100 (bytes "/devices/foo@ACTION=add\x00MODALIAS=bar:baz\x00" ++ [0]) 41
      = .null_action := by
  decide

/-- What the code does on every message of the form `path@ACTION=a NUL
MODALIAS=m NUL` terminated at `len`: no action is extracted, the modalias is
`m`, and `strcmp` is reached with a NULL action. -/
theorem parse_joined (path a m stale : List Nat) (fork_ret : Int)
    (hpath : ∀ x ∈ path, x ≠ 64 ∧ x ≠ 0)
    (ha : ∀ x ∈ a, x ≠ 61 ∧ x ≠ 0) (hm : ∀ x ∈ m, x ≠ 61 ∧ x ≠ 0) :
    parse (uevent_joined path a m ++ 0 :: stale) (uevent_joined path a m).length
      = some ⟨none, some m⟩ ∧
    _handle_new_device fork_ret (uevent_joined path a m ++ 0 :: stale)
        (uevent_joined path a m).length = .null_action := by
  have hs := scan_joined path a m stale hpath ha hm
  have hmsg : uevent_joined path a m ++ 0 :: stale
      = (path ++ 64 :: bytes "ACTION=" ++ a ++ [0]) ++ (bytes "MODALIAS=" ++ (m ++ 0 :: 0 :: stale))
      := by
    simp [uevent_joined]
  have l0 : (path ++ 64 :: bytes "ACTION=" ++ a ++ [0]).length
      = path.length + (8 + a.length) + 1 := by
    simp [bytes_ACTION]; omega
  have dM : (uevent_joined path a m ++ 0 :: stale).drop
      (path.length + (8 + a.length) + 1 + 9) = m ++ 0 :: 0 :: stale := by
    have h1 := drop_add_of_drop (l := uevent_joined path a m ++ 0 :: stale)
      (x := path ++ 64 :: bytes "ACTION=" ++ a ++ [0]) (p := 0) (by rw [List.drop_zero, hmsg])
    rw [Nat.zero_add, l0] at h1
    exact drop_add_of_drop (x := bytes "MODALIAS=") h1
  have cM := cstr_append_nul m (0 :: stale) (fun x hx => (hm x hx).2)
  constructor
  · simp only [parse, hs, Option.map_some', Option.map_none', dM, cM]
  · simp only [_handle_new_device, hs]

/-- The instance of the theorem above for the message of the spec,
"/devices/foo@ACTION=add" NUL "MODALIAS=bar:baz" NUL. -/
theorem parse_joined_witness :
    parse (uevent_joined (bytes "/devices/foo") (bytes "add") (bytes "bar:baz") ++ 0 :: [])
        (uevent_joined (bytes "/devices/foo") (bytes "add") (bytes "bar:baz")).length
      = some ⟨none, some (bytes "bar:baz")⟩ :=
  (parse_joined (bytes "/devices/foo") (bytes "add") (bytes "bar:baz") [] 100
    (by decide) (by decide) (by decide)).1

/-- Claim C2 at a failing input.  In "/x@" NUL "MODALIAS=a" NUL "MODALIAS=b"
NUL "FOOMODALIAS=c" NUL "ACTION=add" NUL the key MODALIAS is in two records,
the last with value "b"; the scan moves from the start of "FOOMODALIAS=c" by
the length of "=c" plus one, lands on "MODALIAS=c", and retains "c", with which
`_load_module` is called.  (On the example of the claim the modalias is "b".) -/
theorem duplicate_key_overwritten_inside_record :
    parse (bytes "/x@\x00MODALIAS=a\x00MODALIAS=b\x00FOOMODALIAS=c\x00ACTION=add\x00" ++ [0]) 51
      = some ⟨some (bytes "add"), some (bytes "c")⟩ ∧
    _handle_new_device 100
        (bytes "/x@\x00MODALIAS=a\x00MODALIAS=b\x00FOOMODALIAS=c\x00ACTION=add\x00" ++ [0]) 51
      = .returned true [bytes "c"] ∧
    parse (bytes "/x@MODALIAS=a\x00MODALIAS=b\x00ACTION=add\x00" ++ [0]) 36
      = some ⟨some (bytes "add"), some (bytes "b")⟩ := by
  decide

/-- Claim C3 at two failing inputs.  No record of "x@" NUL "FOOMODALIAS=y" NUL
"ACTION=add" NUL starts with MODALIAS=, yet the modalias "y" is extracted and
`_load_module` is called with it; and in "x@" NUL "MODALIAS=ACTION=x" NUL no
record starts with ACTION=, yet the action "x" is extracted. -/
theorem unrecognised_key_populates_field :
    _handle_new_device 100 (bytes "x@\x00FOOMODALIAS=y\x00ACTION=add\x00" ++ [0]) 28
      = .returned true [bytes "y"] ∧
    parse (bytes "x@\x00MODALIAS=ACTION=x\x00" ++ [0]) 21
      = some ⟨some (bytes "x"), some (bytes "ACTION=x")⟩ := by
  decide

/-- Claim C4 at a failing input.  For "x@" NUL "MODALIAS=a" NUL, terminated at
index 14, a modalias is found and no action: `_handle_new_device` tests
`module_alias` against NULL, not `action`, and calls `strcmp("add", action)`
with `action` NULL. -/
theorem missing_action_reaches_strcmp :
    parse (bytes "x@\x00MODALIAS=a\x00" ++ [0]) 14 = some ⟨none, some (bytes "a")⟩ ∧
    _handle_new_device 100 (bytes "x@\x00MODALIAS=a\x00" ++ [0]) 14 = .null_action ∧
    _handle_new_device (-1) (bytes "x@\x00MODALIAS=a\x00" ++ [0]) 14 = .null_action := by
  decide

/-- Claim C5.  Whenever the parser yields a modalias and an action other than
the exact string "add", `_handle_new_device` returns true without calling
`_load_module`; this holds for every buffer, terminated or not. -/
theorem handle_other_action (fork_ret : Int) (message : List Nat) (len : Nat)
    (action modalias : List Nat)
    (hparse : parse message len = some ⟨some action, some modalias⟩)
    (hne : action ≠ bytes "add") :
    _handle_new_device fork_ret message len = .returned true [] := by
  unfold parse at hparse
  unfold _handle_new_device
  cases hs : scan message len with
  | none => simp [hs] at hparse
  | some r =>
    cases r with
    | none => simp [hs] at hparse
    | some s =>
      rw [hs] at hparse
      simp only [Option.map_some', Option.some.injEq, ParsedEvent.mk.injEq] at hparse
      obtain ⟨hA, hM⟩ := hparse
      cases hm : s.module_alias with
      | none => simp [hm] at hM
      | some pm =>
        cases ha : s.action with
        | none => simp [ha] at hA
        | some pa =>
          rw [ha] at hA
          simp only [Option.map_some', Option.some.injEq] at hA
          have hcmp : ¬ 0 = strcmp (bytes "add") (message.drop pa) := by
            rw [strcmp_literal _ _ (by decide), hA]
            exact hne
          simp only [hm, ha, hcmp, if_false]

/-- Claim C5 at the message "remove@/devices/x"
NUL "ACTION=remove" NUL "MODALIAS=usb:v1" NUL. -/
theorem handle_other_action_witness :
    (parse (bytes "remove@/devices/x\x00ACTION=remove\x00MODALIAS=usb:v1\x00" ++ [0]) 48
        = some ⟨some (bytes "remove"), some (bytes "usb:v1")⟩ ∧
      bytes "remove" ≠ bytes "add") ∧
    _handle_new_device 100
        (bytes "remove@/devices/x\x00ACTION=remove\x00MODALIAS=usb:v1\x00" ++ [0]) 48
      = .returned true [] :=
  ⟨⟨by decide, by decide⟩,
    handle_other_action 100 _ 48 (bytes "remove") (bytes "usb:v1") (by decide) (by decide)⟩

theorem strchrFrom_absent (c : Nat) (l : List Nat) (len i : Nat)
    (hterm : l[len]? = some 0) (hno : ∀ j, j ≤ len → l[j]? ≠ some c) :
    strchrFrom l c i = none := by
  induction l generalizing len i with
  | nil => rfl
  | cons b l ih =>
    have hb : b ≠ c := by
      intro e
      exact hno 0 (by omega) (by simp [e])
    by_cases h0 : b = 0
    · subst h0
      simp [strchrFrom, hb]
    · cases len with
      | zero => simp at hterm; exact absurd hterm h0
      | succ len =>
        have := ih len (i + 1) (by simpa using hterm) (fun j hj => by
          have := hno (j + 1) (by omega)
          simpa using this)
        simp [strchrFrom, hb, h0, this]

/-- Claim C6.  For every buffer terminated at index `len` with no `@` at an
index up to `len`, `_handle_new_device` extracts neither an action nor a
modalias, does not call `_load_module`, and returns (true). -/
theorem handle_without_at (fork_ret : Int) (message : List Nat) (len : Nat)
    (hterm : message[len]? = some 0)
    (hno : ∀ i, i ≤ len → message[i]? ≠ some 64) :
    parse message len = some ⟨none, none⟩ ∧
    _handle_new_device fork_ret message len = .returned true [] := by
  have hat : strchr message 0 64 = none := by
    unfold strchr
    rw [List.drop_zero]
    exact strchrFrom_absent 64 message len 0 hterm hno
  have hs : scan message len = some none := by
    unfold scan
    rw [hat]
  simp [parse, _handle_new_device, hs]

/-- Claim C6 at the message "ACTION=add" NUL
"MODALIAS=usb:v1" NUL, which has no `@`. -/
theorem handle_without_at_witness :
    ((bytes "ACTION=add\x00MODALIAS=usb:v1\x00" ++ [0])[27]? = some 0 ∧
      (∀ i, i ≤ 27 → (bytes "ACTION=add\x00MODALIAS=usb:v1\x00" ++ [0])[i]? ≠ some 64)) ∧
    (parse (bytes "ACTION=add\x00MODALIAS=usb:v1\x00" ++ [0]) 27 = some ⟨none, none⟩ ∧
    _handle_new_device 100 (bytes "ACTION=add\x00MODALIAS=usb:v1\x00" ++ [0]) 27
      = .returned true []) :=
  ⟨⟨by decide, by decide⟩,
    handle_without_at 100 _ 27 (by decide) (by decide)⟩

/-! ## Claims on the cold-plug scan -/

theorem set_at_length (u t : List Nat) (x y : Nat) :
    (u ++ x :: t).set u.length y = u ++ y :: t := by
  induction u with
  | nil => rfl
  | cons b u ih => simp [ih]

theorem handle_existing_readable (entry : DirEntry)
    (hname : cstr entry.d_name = bytes "modalias")
    (hopen : entry.open_ret ≠ -1) (hread : 0 < entry.read_ret) :
    _handle_existing_device entry
      = (false, [cstr (entry.module_alias.set (entry.read_ret - 1).toNat 0)]) := by
  have h : ¬ 0 ≠ strcmp MODULE_ALIAS_FILE_NAME entry.d_name := by
    intro e
    exact e ((strcmp_literal _ _ (by decide)).mpr hname)
  have h2 : ¬ (-1 = entry.open_ret) := fun e => hopen e.symm
  have h3 : ¬ (0 ≥ entry.read_ret) := by omega
  rw [_handle_existing_device, if_neg h, if_neg h2, if_neg h3]

/-- Claim C7, as amended.  For every entry named exactly "modalias" whose file
opens and whose read returns n > 0 bytes with no NUL among them,
`_handle_existing_device` calls `_load_module` once, with the first n - 1 of
those bytes: the terminator is written over the last byte read (the newline
that ends a modalias file of sysfs), and the callback returns continue. -/
theorem coldplug_alias_without_last_byte (entry : DirEntry) (content stale : List Nat)
    (hname : cstr entry.d_name = bytes "modalias")
    (hopen : entry.open_ret ≠ -1)
    (hread : entry.read_ret = content.length) (hpos : 0 < content.length)
    (hbuf : entry.module_alias = content ++ stale)
    (hnul : ∀ x ∈ content, x ≠ 0) :
    _handle_existing_device entry = (false, [content.dropLast]) := by
  have hne : content ≠ [] := by
    intro e; rw [e] at hpos; simp at hpos
  rw [handle_existing_readable entry hname hopen (by omega), hbuf, hread]
  have hidx : ((content.length : Int) - 1).toNat = content.dropLast.length := by
    rw [List.length_dropLast]; omega
  have hsplit : content ++ stale = content.dropLast ++ content.getLast hne :: stale := by
    conv_lhs => rw [← List.dropLast_append_getLast hne]
    simp
  rw [hidx, hsplit, set_at_length]
  rw [cstr_append_nul _ _ (fun x hx => hnul x (List.mem_of_mem_dropLast hx))]

/-- The amended claim C7 at a file that holds
"usb:v1" and a newline. -/
theorem coldplug_alias_without_last_byte_witness :
    (cstr (bytes "modalias\x00") = bytes "modalias" ∧ (3 : Int) ≠ -1 ∧
      (7 : Int) = (bytes "usb:v1\n").length ∧ 0 < (bytes "usb:v1\n").length ∧
      bytes "usb:v1\n" ++ [88, 0, 88] = bytes "usb:v1\n" ++ [88, 0, 88] ∧
      (∀ x ∈ bytes "usb:v1\n", x ≠ 0)) ∧
    _handle_existing_device ⟨bytes "modalias\x00", 3, 7, bytes "usb:v1\n" ++ [88, 0, 88], 100⟩
      = (false, [(bytes "usb:v1\n").dropLast]) :=
  ⟨⟨by decide, by decide, by decide, by decide, rfl, by decide⟩,
    coldplug_alias_without_last_byte
      ⟨bytes "modalias\x00", 3, 7, bytes "usb:v1\n" ++ [88, 0, 88], 100⟩
      (bytes "usb:v1\n") [88, 0, 88] (by decide) (by decide) (by decide) (by decide) rfl
      (by decide)⟩

/-- Claim C7 fails as stated: a read that returns the 7 bytes "usb:v1" and a
newline, none of them NUL, leads to `_load_module` being called with the 6
bytes "usb:v1", the last byte read being dropped. -/
theorem coldplug_alias_counterexample :
    _handle_existing_device ⟨bytes "modalias\x00", 3, 7, bytes "usb:v1\n" ++ [88, 0, 88], 100⟩
      = (false, [bytes "usb:v1"]) ∧
    (_handle_existing_device
        ⟨bytes "modalias\x00", 3, 7, bytes "usb:v1\n" ++ [88, 0, 88], 100⟩).2
      ≠ [bytes "usb:v1\n"] := by
  decide

theorem after_fst (acts : List Act) (r : Outcome × List Act) : (after acts r).1 = r.1 := rfl

theorem after_snd (acts : List Act) (r : Outcome × List Act) :
    (after acts r).2 = acts ++ r.2 := rfl

theorem Event.benign_not_terminates (e : Event) (h : e.benign) : ¬ e.terminates :=
  fun ht => h.2.1 ht.2

theorem Event.benign_not_fatal (e : Event) (h : e.benign) : ¬ e.fatal := by
  rintro (hf | ⟨_, hc, errno, hr, he⟩)
  · exact hf h.1
  · rcases h.2.2 with h1 | h1 | ⟨data, h1⟩
    · exact hc h1
    · rw [hr] at h1
      injection h1 with h2
      exact he h2
    · rw [hr] at h1
      cases h1

theorem Event.terminates_not_fatal (e : Event) (h : e.terminates) : ¬ e.fatal := by
  rintro (hf | ⟨ht, _⟩)
  · exact hf h.1
  · exact ht h.2

theorem Event.idle_benign (e : Event) (h : e.idle) : e.benign := by
  obtain ⟨h0, hc | ⟨ht, hr | hr⟩⟩ := h
  · refine ⟨h0, ?_, Or.inl hc⟩
    rw [hc]; decide
  · exact ⟨h0, ht, Or.inr (Or.inl hr)⟩
  · exact ⟨h0, ht, Or.inr (Or.inr ⟨[], hr⟩)⟩

/-- What one turn of the loop does, by the kind of the turn. -/
theorem waitLoop_turn (e : Event) (buffer : List Nat) :
    (e.terminates ∧ ∀ es, waitLoop (e :: es) buffer = (.exited EXIT_SUCCESS, [])) ∨
    (e.fatal ∧ ∃ acts, ∀ es, waitLoop (e :: es) buffer = (.exited EXIT_FAILURE, acts)) ∨
    (e.benign ∧ ∃ acts buffer1, ∀ es,
      waitLoop (e :: es) buffer = after acts (waitLoop es buffer1)) ∨
    (e.benign ∧ ∃ acts, ∀ es, waitLoop (e :: es) buffer = (.undefined, acts)) := by
  by_cases h0 : 0 ≠ e.sigwait_ret
  · refine Or.inr (Or.inl ⟨Or.inl (Ne.symm h0), [], fun es => ?_⟩)
    rw [waitLoop, if_pos h0]
  have h0e : e.sigwait_ret = 0 := (not_not.mp h0).symm
  by_cases ht : e.received_signal = SIGTERM
  · refine Or.inl ⟨⟨h0e, ht⟩, fun es => ?_⟩
    rw [waitLoop, if_neg h0, if_pos ht]
  by_cases hc : e.received_signal = SIGCHLD
  · refine Or.inr (Or.inr (Or.inl ⟨⟨h0e, ht, Or.inl hc⟩, [], buffer, fun es => ?_⟩))
    rw [waitLoop, if_neg h0, if_neg ht, if_pos hc]
    rfl
  cases hr : e.recv with
  | failed errno =>
    by_cases he : EAGAIN ≠ errno
    · refine Or.inr (Or.inl ⟨Or.inr ⟨ht, hc, errno, hr, Ne.symm he⟩, [.recv], fun es => ?_⟩)
      rw [waitLoop, if_neg h0, if_neg ht, if_neg hc, hr]
      simp only [if_pos he]
    · have hee : errno = EAGAIN := (not_not.mp he).symm
      refine Or.inr (Or.inr (Or.inl
        ⟨⟨h0e, ht, Or.inr (Or.inl (by rw [hr, hee]))⟩, [.recv], buffer, fun es => ?_⟩))
      rw [waitLoop, if_neg h0, if_neg ht, if_neg hc, hr]
      simp only [if_neg he]
  | received data =>
    have hb : e.benign := ⟨h0e, ht, Or.inr (Or.inr ⟨data, hr⟩)⟩
    by_cases hd : data.length = 0
    · refine Or.inr (Or.inr (Or.inl
        ⟨hb, [.recv], data ++ buffer.drop data.length, fun es => ?_⟩))
      rw [waitLoop, if_neg h0, if_neg ht, if_neg hc, hr]
      simp only [if_pos hd]
    · cases hh : _handle_new_device e.fork_ret
          ((data ++ buffer.drop data.length).set data.length 0) data.length with
      | returned is_success loaded =>
        refine Or.inr (Or.inr (Or.inl ⟨hb,
          [.recv, .handle ((data ++ buffer.drop data.length).set data.length 0) data.length
            (.returned is_success loaded)],
          (data ++ buffer.drop data.length).set data.length 0, fun es => ?_⟩))
        rw [waitLoop, if_neg h0, if_neg ht, if_neg hc, hr]
        simp only [if_neg hd, hh]
      | null_action =>
        refine Or.inr (Or.inr (Or.inr ⟨hb,
          [.recv, .handle ((data ++ buffer.drop data.length).set data.length 0) data.length
            .null_action], fun es => ?_⟩))
        rw [waitLoop, if_neg h0, if_neg ht, if_neg hc, hr]
        simp only [if_neg hd, hh]
      | no_fuel =>
        refine Or.inr (Or.inr (Or.inr ⟨hb,
          [.recv, .handle ((data ++ buffer.drop data.length).set data.length 0) data.length
            .no_fuel], fun es => ?_⟩))
        rw [waitLoop, if_neg h0, if_neg ht, if_neg hc, hr]
        simp only [if_neg hd, hh]

/-- An idle turn leaves the buffer as it is and the outcome to the turns that
follow. -/
theorem waitLoop_idle (e : Event) (es : List Event) (buffer : List Nat) (h : e.idle) :
    (waitLoop (e :: es) buffer).1 = (waitLoop es buffer).1 := by
  obtain ⟨h0, hcase⟩ := h
  have h0' : ¬ (0 ≠ e.sigwait_ret) := fun c => c h0.symm
  rcases hcase with hc | ⟨ht, hr | hr⟩
  · have ht : e.received_signal ≠ SIGTERM := by rw [hc]; decide
    rw [waitLoop, if_neg h0', if_neg ht, if_pos hc]
  · by_cases hc : e.received_signal = SIGCHLD
    · rw [waitLoop, if_neg h0', if_neg ht, if_pos hc]
    · rw [waitLoop, if_neg h0', if_neg ht, if_neg hc, hr]
      simp [after]
  · by_cases hc : e.received_signal = SIGCHLD
    · rw [waitLoop, if_neg h0', if_neg ht, if_pos hc]
    · rw [waitLoop, if_neg h0', if_neg ht, if_neg hc, hr]
      simp [after]

/-- The loop is left with an exit code exactly at the first turn that ends it,
the daemon waiting after the turns before. -/
theorem waitLoop_exited (events : List Event) (buffer : List Nat) (c : Nat) :
    (waitLoop events buffer).1 = .exited c ↔
      ∃ pre e post, events = pre ++ e :: post ∧ (waitLoop pre buffer).1 = .waiting ∧
        ((e.terminates ∧ c = EXIT_SUCCESS) ∨ (e.fatal ∧ c = EXIT_FAILURE)) := by
  induction events generalizing buffer with
  | nil => simp [waitLoop]
  | cons e es ih =>
    rcases waitLoop_turn e buffer with ⟨ht, hrun⟩ | ⟨hf, acts, hrun⟩ | ⟨hb, acts, buffer1, hrun⟩ |
      ⟨hb, acts, hrun⟩
    · rw [hrun es]
      constructor
      · intro h
        injection h with h
        exact ⟨[], e, es, rfl, rfl, Or.inl ⟨ht, h.symm⟩⟩
      · rintro ⟨pre, x, post, heq, hw, hx⟩
        cases pre with
        | nil =>
          simp only [List.nil_append, List.cons.injEq] at heq
          rw [← heq.1] at hx
          rcases hx with ⟨_, hc⟩ | ⟨hf, _⟩
          · rw [hc]
          · exact absurd hf (Event.terminates_not_fatal e ht)
        | cons y pre =>
          simp only [List.cons_append, List.cons.injEq] at heq
          rw [← heq.1, hrun pre] at hw
          cases hw
    · rw [hrun es]
      constructor
      · intro h
        injection h with h
        exact ⟨[], e, es, rfl, rfl, Or.inr ⟨hf, h.symm⟩⟩
      · rintro ⟨pre, x, post, heq, hw, hx⟩
        cases pre with
        | nil =>
          simp only [List.nil_append, List.cons.injEq] at heq
          rw [← heq.1] at hx
          rcases hx with ⟨ht, _⟩ | ⟨_, hc⟩
          · exact absurd hf (Event.terminates_not_fatal e ht)
          · rw [hc]
        | cons y pre =>
          simp only [List.cons_append, List.cons.injEq] at heq
          rw [← heq.1, hrun pre] at hw
          cases hw
    · rw [hrun es, after_fst, ih buffer1]
      constructor
      · rintro ⟨pre, x, post, heq, hw, hx⟩
        refine ⟨e :: pre, x, post, by rw [heq]; rfl, ?_, hx⟩
        rw [hrun pre, after_fst]
        exact hw
      · rintro ⟨pre, x, post, heq, hw, hx⟩
        cases pre with
        | nil =>
          simp only [List.nil_append, List.cons.injEq] at heq
          rw [← heq.1] at hx
          rcases hx with ⟨ht, _⟩ | ⟨hf, _⟩
          · exact absurd ht (Event.benign_not_terminates e hb)
          · exact absurd hf (Event.benign_not_fatal e hb)
        | cons y pre =>
          simp only [List.cons_append, List.cons.injEq] at heq
          rw [← heq.1, hrun pre, after_fst] at hw
          exact ⟨pre, x, post, heq.2, hw, hx⟩
    · rw [hrun es]
      constructor
      · intro h
        cases h
      · rintro ⟨pre, x, post, heq, hw, hx⟩
        cases pre with
        | nil =>
          simp only [List.nil_append, List.cons.injEq] at heq
          rw [← heq.1] at hx
          rcases hx with ⟨ht, _⟩ | ⟨hf, _⟩
          · exact absurd ht (Event.benign_not_terminates e hb)
          · exact absurd hf (Event.benign_not_fatal e hb)
        | cons y pre =>
          simp only [List.cons_append, List.cons.injEq] at heq
          rw [← heq.1, hrun pre] at hw
          cases hw

/-- While the daemon waits, every turn so far was benign. -/
theorem waitLoop_waiting (events : List Event) (buffer : List Nat)
    (h : (waitLoop events buffer).1 = .waiting) : ∀ x ∈ events, x.benign := by
  induction events generalizing buffer with
  | nil => simp
  | cons e es ih =>
    rcases waitLoop_turn e buffer with ⟨_, hrun⟩ | ⟨_, acts, hrun⟩ | ⟨hb, acts, buffer1, hrun⟩ |
      ⟨_, acts, hrun⟩
    · rw [hrun es] at h; cases h
    · rw [hrun es] at h; cases h
    · rw [hrun es, after_fst] at h
      intro x hx
      rcases List.mem_cons.mp hx with e1 | e1
      · rw [e1]; exact hb
      · exact ih buffer1 h x e1
    · rw [hrun es] at h; cases h

/-- Idle turns alone never end the loop. -/
theorem waitLoop_all_idle (events : List Event) (buffer : List Nat)
    (h : ∀ x ∈ events, x.idle) : (waitLoop events buffer).1 = .waiting := by
  induction events with
  | nil => rfl
  | cons e es ih =>
    rw [waitLoop_idle e es buffer (h e (by simp))]
    exact ih (fun x hx => h x (by simp [hx]))

/-- Taking an idle turn out of a run does not change its outcome. -/
theorem waitLoop_without_idle (pre : List Event) (e : Event) (post : List Event)
    (buffer : List Nat) (h : e.idle) :
    (waitLoop (pre ++ e :: post) buffer).1 = (waitLoop (pre ++ post) buffer).1 := by
  induction pre generalizing buffer with
  | nil => exact waitLoop_idle e post buffer h
  | cons x pre ih =>
    rcases waitLoop_turn x buffer with ⟨_, hrun⟩ | ⟨_, acts, hrun⟩ | ⟨_, acts, buffer1, hrun⟩ |
      ⟨_, acts, hrun⟩
    · rw [List.cons_append, List.cons_append, hrun, hrun]
    · rw [List.cons_append, List.cons_append, hrun, hrun]
    · rw [List.cons_append, List.cons_append, hrun, hrun, after_fst, after_fst, ih buffer1]
    · rw [List.cons_append, List.cons_append, hrun, hrun]

/-- The acts of a run that is left by SIGTERM are those of the turns before it:
nothing is received or handled in the turn of the SIGTERM or after it. -/
theorem waitLoop_acts_until_sigterm (pre : List Event) (e : Event) (post : List Event)
    (buffer : List Nat) (hw : (waitLoop pre buffer).1 = .waiting) (ht : e.terminates) :
    (waitLoop (pre ++ e :: post) buffer).2 = (waitLoop pre buffer).2 := by
  induction pre generalizing buffer with
  | nil =>
    rcases waitLoop_turn e buffer with ⟨_, hrun⟩ | ⟨hf, _⟩ | ⟨hb, _⟩ | ⟨hb, _⟩
    · rw [List.nil_append, hrun]
      rfl
    · exact absurd hf (Event.terminates_not_fatal e ht)
    · exact absurd ht (Event.benign_not_terminates e hb)
    · exact absurd ht (Event.benign_not_terminates e hb)
  | cons x pre ih =>
    rcases waitLoop_turn x buffer with ⟨_, hrun⟩ | ⟨_, acts, hrun⟩ | ⟨_, acts, buffer1, hrun⟩ |
      ⟨_, acts, hrun⟩
    · rw [hrun pre] at hw; cases hw
    · rw [hrun pre] at hw; cases hw
    · rw [hrun pre, after_fst] at hw
      rw [List.cons_append, hrun, hrun, after_snd, after_snd, ih buffer1 hw]
    · rw [hrun pre] at hw; cases hw

theorem main_of_ok (st : Startup) (events : List Event) (h : st.ok) :
    main st events = waitLoop events st.buffer := by
  obtain ⟨h1, h2, h3, h4, h5, h6, h7, h8, h9, h10, h11, h12, h13⟩ := h
  unfold main
  rw [if_neg (by simp [h1]), if_neg (Ne.symm h2), if_neg (Ne.symm h3), if_neg (Ne.symm h4),
    if_neg (Ne.symm h5), if_neg (Ne.symm h6), if_neg (Ne.symm h7), if_neg (Ne.symm h8),
    if_neg (Ne.symm h9), if_neg (Ne.symm h10), if_neg (by simp [h11]), if_neg (by simp [h12]),
    if_neg (by simp [h13])]

theorem main_of_not_ok (st : Startup) (events : List Event) (h : ¬ st.ok) :
    main st events = (.exited EXIT_FAILURE, []) := by
  unfold main
  by_cases c1 : 1 ≠ st.argc
  · rw [if_pos c1]
  rw [if_neg c1]
  by_cases c2 : -1 = st.sigemptyset_action
  · rw [if_pos c2]
  rw [if_neg c2]
  by_cases c3 : -1 = st.sigaction
  · rw [if_pos c3]
  rw [if_neg c3]
  by_cases c4 : -1 = st.sigemptyset_mask
  · rw [if_pos c4]
  rw [if_neg c4]
  by_cases c5 : -1 = st.sigaddset_io
  · rw [if_pos c5]
  rw [if_neg c5]
  by_cases c6 : -1 = st.sigaddset_chld
  · rw [if_pos c6]
  rw [if_neg c6]
  by_cases c7 : -1 = st.sigaddset_term
  · rw [if_pos c7]
  rw [if_neg c7]
  by_cases c8 : -1 = st.sigprocmask
  · rw [if_pos c8]
  rw [if_neg c8]
  by_cases c9 : -1 = st.socket
  · rw [if_pos c9]
  rw [if_neg c9]
  by_cases c10 : -1 = st.bind
  · rw [if_pos c10]
  rw [if_neg c10]
  by_cases c11 : false = st.daemonize
  · rw [if_pos c11]
  rw [if_neg c11]
  by_cases c12 : false = st.file_enable_async_io
  · rw [if_pos c12]
  rw [if_neg c12]
  by_cases c13 : true = (_handle_existing_devices st.sysfs).1
  · rw [if_pos c13]
  exfalso
  apply h
  refine ⟨(not_not.mp c1).symm, fun e => c2 e.symm, fun e => c3 e.symm, fun e => c4 e.symm,
    fun e => c5 e.symm, fun e => c6 e.symm, fun e => c7 e.symm, fun e => c8 e.symm,
    fun e => c9 e.symm, fun e => c10 e.symm, ?_, ?_, ?_⟩
  · cases hd : st.daemonize with
    | true => rfl
    | false => exact absurd hd.symm c11
  · cases hd : st.file_enable_async_io with
    | true => rfl
    | false => exact absurd hd.symm c12
  · cases hd : (_handle_existing_devices st.sysfs).1 with
    | false => rfl
    | true => exact absurd hd.symm c13

/-- The exit codes of `main`, for the runs in which every call of
`_handle_new_device` returns.  With the results of the system calls as
inputs, `main` exits
with 0 exactly when the loop is left because `sigwait` delivers SIGTERM: the
daemon waits after the turns before, and the next turn delivers SIGTERM.  It
exits with 1 exactly when the argument count is not 1, a call before the loop
fails, the cold-plug scan reports stop, or the loop is left because `sigwait`
fails or `recv` fails with an errno other than EAGAIN; there is no other exit
code.  While the daemon waits every turn so far was benign; turns with a
SIGCHLD, a `recv` returning EAGAIN or a zero-length `recv` never end the loop,
and taking one out of a run does not change the outcome; and a run left by
SIGTERM has the acts of the turns before the SIGTERM only, so that no message
is received or handled once SIGTERM is observed. -/
theorem main_exit_status (st : Startup) (events : List Event) :
    ((main st events).1 = .exited EXIT_SUCCESS ↔
      ∃ pre e post, events = pre ++ e :: post ∧ (main st pre).1 = .waiting ∧ e.terminates) ∧
    ((main st events).1 = .exited EXIT_FAILURE ↔
      ¬ st.ok ∨
      ∃ pre e post, events = pre ++ e :: post ∧ (main st pre).1 = .waiting ∧ e.fatal) ∧
    (∀ c, (main st events).1 = .exited c → c = EXIT_SUCCESS ∨ c = EXIT_FAILURE) ∧
    ((main st events).1 = .waiting → st.ok ∧ ∀ x ∈ events, x.benign) ∧
    (st.ok → (∀ x ∈ events, x.idle) → (main st events).1 = .waiting) ∧
    (∀ pre e post, events = pre ++ e :: post → e.idle →
      (main st events).1 = (main st (pre ++ post)).1) ∧
    (∀ pre e post, events = pre ++ e :: post → (main st pre).1 = .waiting → e.terminates →
      (main st events).2 = (main st pre).2) := by
  by_cases hok : st.ok
  · have hm := fun evs => main_of_ok st evs hok
    simp only [hm]
    refine ⟨?_, ?_, ?_, ?_, ?_, ?_, ?_⟩
    · rw [waitLoop_exited]
      constructor
      · rintro ⟨pre, e, post, heq, hw, hx⟩
        rcases hx with ⟨ht, _⟩ | ⟨_, hc⟩
        · exact ⟨pre, e, post, heq, hw, ht⟩
        · exact absurd hc (by decide)
      · rintro ⟨pre, e, post, heq, hw, ht⟩
        exact ⟨pre, e, post, heq, hw, Or.inl ⟨ht, rfl⟩⟩
    · rw [waitLoop_exited]
      constructor
      · rintro ⟨pre, e, post, heq, hw, hx⟩
        rcases hx with ⟨_, hc⟩ | ⟨hf, _⟩
        · exact absurd hc (by decide)
        · exact Or.inr ⟨pre, e, post, heq, hw, hf⟩
      · rintro (hn | ⟨pre, e, post, heq, hw, hf⟩)
        · exact absurd hok hn
        · exact ⟨pre, e, post, heq, hw, Or.inr ⟨hf, rfl⟩⟩
    · intro c hc
      obtain ⟨pre, e, post, _, _, hx⟩ := (waitLoop_exited events st.buffer c).mp hc
      rcases hx with ⟨_, h⟩ | ⟨_, h⟩
      · exact Or.inl h
      · exact Or.inr h
    · exact fun h => ⟨hok, waitLoop_waiting events st.buffer h⟩
    · exact fun _ h => waitLoop_all_idle events st.buffer h
    · intro pre e post heq hi
      rw [heq]
      exact waitLoop_without_idle pre e post st.buffer hi
    · intro pre e post heq hw ht
      rw [heq]
      exact waitLoop_acts_until_sigterm pre e post st.buffer hw ht
  · have hm := fun evs => main_of_not_ok st evs hok
    simp only [hm]
    refine ⟨?_, ?_, ?_, ?_, ?_, ?_, ?_⟩
    · constructor
      · intro h
        injection h with h
        exact absurd h (by decide)
      · rintro ⟨_, _, _, _, hw, _⟩
        cases hw
    · exact ⟨fun _ => Or.inl hok, fun _ => trivial⟩
    · intro c hc
      injection hc with hc
      exact Or.inr hc.symm
    · intro h
      cases h
    · exact fun h => absurd h hok
    · exact fun _ _ _ _ _ => trivial
    · intro _ _ _ _ hw
      cases hw

/-- The theorem above at a run with a SIGCHLD, a `recv` returning EAGAIN, a
message, and SIGTERM followed by a further turn: the exit code is 0. -/
theorem main_exit_status_witness :
    (main startup_example [sigchld_turn, eagain_turn, uevent_turn, sigterm_turn, uevent_turn]).1
      = .exited EXIT_SUCCESS :=
  (main_exit_status startup_example
      [sigchld_turn, eagain_turn, uevent_turn, sigterm_turn, uevent_turn]).1.mpr
    ⟨[sigchld_turn, eagain_turn, uevent_turn], sigterm_turn, [uevent_turn], rfl,
      by decide, ⟨rfl, rfl⟩⟩

/-- Claim C9 at a failing input.  Every call before the loop succeeds; the
first turn delivers the I/O signal and `recv` returns the 14 bytes "x@" NUL
"MODALIAS=a" NUL; the second turn delivers SIGTERM.  The first turn is none of
the cases the claim lists as ending the loop, yet `main` does not reach the
SIGTERM: it puts the terminator at index 14 and calls `_handle_new_device`,
which reaches `strcmp("add", action)` with `action` NULL.  The run ends there,
with neither exit code 0 nor exit code 1. -/
theorem main_ends_in_null_strcmp :
    modalias_only_turn.sigwait_ret = 0 ∧
    modalias_only_turn.received_signal ≠ SIGTERM ∧
    modalias_only_turn.received_signal ≠ SIGCHLD ∧
    modalias_only_turn.recv = .received (bytes "x@\x00MODALIAS=a\x00") ∧
    sigterm_turn.sigwait_ret = 0 ∧ sigterm_turn.received_signal = SIGTERM ∧
    main startup_example [modalias_only_turn, sigterm_turn]
      = (.undefined,
          [.recv, .handle (bytes "x@\x00MODALIAS=a\x00" ++ 0 :: List.replicate 49 170) 14
            .null_action]) ∧
    (main startup_example [modalias_only_turn, sigterm_turn]).1 ≠ .exited EXIT_SUCCESS ∧
    (main startup_example [modalias_only_turn, sigterm_turn]).1 ≠ .exited EXIT_FAILURE ∧
    (main startup_example [modalias_only_turn, sigterm_turn]).1 ≠ .waiting := by
  decide

/-! ## Bounds of the scan -/

theorem strlenFrom_le (l : List Nat) (n : Nat) (h : l[n]? = some 0) : strlenFrom l ≤ n := by
  induction l generalizing n with
  | nil => simp at h
  | cons b l ih =>
    by_cases hb : b = 0
    · simp [strlenFrom, hb]
    · cases n with
      | zero => simp at h; exact absurd h hb
      | succ n =>
        have := ih n (by simpa using h)
        simp [strlenFrom, hb]
        omega

/-- The string that starts at or before a NUL at index `len` ends at or
before `len`. -/
theorem strlen_le (message : List Nat) (len p : Nat) (hterm : message[len]? = some 0)
    (hp : p ≤ len) : p + strlen message p ≤ len := by
  have h : (message.drop p)[len - p]? = some 0 := by
    rw [List.getElem?_drop]
    rw [show p + (len - p) = len by omega]
    exact hterm
  have := strlenFrom_le _ _ h
  unfold strlen
  omega

/-- A byte found by `strchr` lies inside the string searched, before its NUL. -/
theorem strchrFrom_bound (l : List Nat) (c i d : Nat) (hc : c ≠ 0)
    (h : strchrFrom l c i = some d) :
    ∃ k, d = i + k ∧ k < strlenFrom l ∧ strlenFrom (l.drop k) = strlenFrom l - k ∧
      strlenFrom (l.drop (k + 1)) = strlenFrom l - k - 1 := by
  induction l generalizing i with
  | nil => simp [strchrFrom] at h
  | cons b l ih =>
    by_cases hb : b = c
    · have hb0 : b ≠ 0 := by rw [hb]; exact hc
      simp [strchrFrom, hb] at h
      refine ⟨0, by omega, ?_, ?_, ?_⟩ <;> simp [strlenFrom, hb0, ← hb]
    · by_cases hb0 : b = 0
      · subst hb0
        simp [strchrFrom, hb] at h
      · simp [strchrFrom, hb, hb0] at h
        obtain ⟨k, hk1, hk2, hk3, hk4⟩ := ih (i + 1) h
        refine ⟨k + 1, by omega, ?_, ?_, ?_⟩
        · simp [strlenFrom, hb0]; omega
        · simp [strlenFrom, hb0, hk3]; omega
        · simp [strlenFrom, hb0, hk4]; omega

/-- One turn of the loop, started at a position up to `len` in a buffer
terminated at `len`: the position grows, to `len + 1` at most, and a pointer
that is set is set to an index up to `len`. -/
theorem scanBody_bounds (message : List Nat) (len : Nat) (s : Scan)
    (hterm : message[len]? = some 0) (hp : s.position ≤ len)
    (ha : ∀ q, s.action = some q → q ≤ len) (hm : ∀ q, s.module_alias = some q → q ≤ len) :
    s.position < (scanBody message s).position ∧
    (scanBody message s).position ≤ len + 1 ∧
    (∀ q, (scanBody message s).action = some q → q ≤ len) ∧
    (∀ q, (scanBody message s).module_alias = some q → q ≤ len) := by
  have hl := strlen_le message len s.position hterm hp
  refine ⟨scanBody_position_lt message s, ?_⟩
  unfold scanBody
  cases hd : strchr message s.position 61 with
  | none =>
    simp only
    exact ⟨by omega, ha, hm⟩
  | some d =>
    obtain ⟨k, hk1, hk2, hk3, hk4⟩ := strchrFrom_bound _ 61 s.position d (by decide) hd
    have e1 : strlen message d = strlen message s.position - k := by
      unfold strlen
      rw [hk1, ← hk3, List.drop_drop, Nat.add_comm]
    have e2 : strlen message (d + 1) = strlen message s.position - k - 1 := by
      unfold strlen
      rw [hk1, ← hk4, List.drop_drop, Nat.add_assoc]
    have hk2' : k < strlen message s.position := hk2
    simp only
    split_ifs
    · refine ⟨by simp only; omega, ha, ?_⟩
      intro q hq
      simp only [Option.some.injEq] at hq
      omega
    · refine ⟨by simp only; omega, ?_, hm⟩
      intro q hq
      simp only [Option.some.injEq] at hq
      omega
    · exact ⟨by simp only; omega, ha, hm⟩

/-- The loop, started at a position up to `len` in a buffer terminated at
`len`, is left with the position at `len + 1` exactly and with every pointer
that is set at an index up to `len`. -/
theorem scanLoop_bounds (message : List Nat) (len fuel : Nat) (s r : Scan)
    (hterm : message[len]? = some 0) (hp : s.position ≤ len)
    (ha : ∀ q, s.action = some q → q ≤ len) (hm : ∀ q, s.module_alias = some q → q ≤ len)
    (h : scanLoop message len fuel s = some r) :
    r.position = len + 1 ∧ (∀ q, r.action = some q → q ≤ len) ∧
    (∀ q, r.module_alias = some q → q ≤ len) := by
  induction fuel generalizing s with
  | zero => simp [scanLoop] at h
  | succ fuel ih =>
    obtain ⟨_, b2, b3, b4⟩ := scanBody_bounds message len s hterm hp ha hm
    unfold scanLoop at h
    by_cases hc : len ≥ (scanBody message s).position
    · simp only [hc, if_true] at h
      exact ih _ hc b3 b4 h
    · simp only [hc, if_false, Option.some.injEq] at h
      subst h
      exact ⟨by omega, b3, b4⟩

/-- The scan of a buffer terminated at `len` that has an `@` before its first
NUL: the `@` is at an index up to `len`, the loop terminates, and it is left
with the position at `len + 1` and the pointers that are set at indices up to
`len`, where the strings they designate end at `len` at the latest. -/
theorem scan_bounds (message : List Nat) (len position : Nat)
    (hterm : message[len]? = some 0) (hat : strchr message 0 64 = some position) :
    position ≤ len ∧
    ∃ r, scan message len = some (some r) ∧ r.position = len + 1 ∧
      (∀ q, r.action = some q → q + strlen message q ≤ len) ∧
      (∀ q, r.module_alias = some q → q + strlen message q ≤ len) := by
  obtain ⟨k, hk1, hk2, _, _⟩ := strchrFrom_bound _ 64 0 position (by decide) hat
  have h0 := strlen_le message len 0 hterm (by omega)
  have hk2' : k < strlen message 0 := hk2
  have hpos : position ≤ len := by omega
  refine ⟨hpos, ?_⟩
  obtain ⟨r, hr⟩ := scanLoop_some message len (len + 1) ⟨position, none, none⟩
    (by simp) (by omega)
  obtain ⟨b1, b2, b3⟩ := scanLoop_bounds message len (len + 1) ⟨position, none, none⟩ r hterm
    hpos (by simp) (by simp) hr
  refine ⟨r, ?_, b1, ?_, ?_⟩
  · unfold scan
    rw [hat]
    simp only [hr, Option.map_some']
  · exact fun q hq => strlen_le message len q hterm (b2 q hq)
  · exact fun q hq => strlen_le message len q hterm (b3 q hq)

/-- Claim C10 at a failing input.  For "add@/devices/x" NUL "MODALIAS=usb:v1"
NUL, terminated at index 31, the loop terminates with the position at 32 and the
modalias pointer at 24, but the action pointer is NULL, and `_handle_new_device`
goes on to `strcmp("add", action)`: the bytes `strcmp` reads through `action`
are not at an index of the message. -/
theorem scan_leaves_null_action :
    scan (bytes "add@/devices/x\x00MODALIAS=usb:v1\x00" ++ [0]) 31
      = some (some ⟨32, none, some 24⟩) ∧
    _handle_new_device 100 (bytes "add@/devices/x\x00MODALIAS=usb:v1\x00" ++ [0]) 31
      = .null_action := by
  decide

/-! ## No byte after index `len` is read -/

theorem cstr_split (l : List Nat) (h : 0 ∈ l) :
    ∃ u t, l = u ++ 0 :: t ∧ ∀ x ∈ u, x ≠ 0 := by
  obtain ⟨k, v, hkv, hk⟩ := split_first l 0 h
  exact ⟨k, v, hkv, fun x hx e => hk (e ▸ hx)⟩

/-- Two buffers that agree up to a NUL at index `len` hold the same string at
every index up to `len`. -/
theorem same_string_at (message other : List Nat) (len p : Nat)
    (hterm : message[len]? = some 0)
    (hsame : other.take (len + 1) = message.take (len + 1)) (hp : p ≤ len) :
    ∃ u t t1, message.drop p = u ++ 0 :: t ∧ other.drop p = u ++ 0 :: t1 ∧
      ∀ x ∈ u, x ≠ 0 := by
  have hlt : len < message.length := by
    by_contra hc
    rw [List.getElem?_eq_none (by omega)] at hterm
    cases hterm
  have hT : (message.take (len + 1)).length = len + 1 := by
    rw [List.length_take]; omega
  have hin : 0 ∈ (message.take (len + 1)).drop p := by
    have h1 : ((message.take (len + 1)).drop p)[len - p]? = some 0 := by
      rw [List.getElem?_drop, show p + (len - p) = len by omega, List.getElem?_take]
      simp [hterm]
    exact List.getElem?_mem h1
  obtain ⟨u, t0, hsplit, hu⟩ := cstr_split _ hin
  have hm : message.drop p = (message.take (len + 1)).drop p ++ message.drop (len + 1) := by
    conv_lhs => rw [← List.take_append_drop (len + 1) message]
    rw [List.drop_append_of_le_length (by omega)]
  have ho : other.drop p = (message.take (len + 1)).drop p ++ other.drop (len + 1) := by
    conv_lhs => rw [← List.take_append_drop (len + 1) other, hsame]
    rw [List.drop_append_of_le_length (by omega)]
  refine ⟨u, t0 ++ message.drop (len + 1), t0 ++ other.drop (len + 1), ?_, ?_, hu⟩
  · rw [hm, hsplit]; simp
  · rw [ho, hsplit]; simp

theorem strchrFrom_tail (u t t1 : List Nat) (c i : Nat) :
    strchrFrom (u ++ 0 :: t) c i = strchrFrom (u ++ 0 :: t1) c i := by
  induction u generalizing i with
  | nil => simp [strchrFrom]
  | cons b u ih => simp [strchrFrom, ih]

theorem strncmp_tail (lit u t t1 : List Nat) (n : Nat) :
    strncmp lit (u ++ 0 :: t) n = strncmp lit (u ++ 0 :: t1) n := by
  induction n generalizing lit u with
  | zero => simp [strncmp]
  | succ n ih =>
    cases u with
    | nil =>
      simp only [strncmp, List.nil_append, List.headD_cons]
      split_ifs with h1 h2
      · rfl
      · rfl
      · exact absurd (not_not.mp h1) h2
    | cons b u => simp [strncmp, ih]

theorem strcmp_tail (lit u t t1 : List Nat) :
    strcmp lit (u ++ 0 :: t) = strcmp lit (u ++ 0 :: t1) := by
  induction lit generalizing u with
  | nil => cases u <;> simp [strcmp]
  | cons a lit ih =>
    cases u with
    | nil =>
      by_cases ha : a = 0
      · simp [strcmp, ha]
      · simp [strcmp, ha]
    | cons b u => simp [strcmp, ih]

/-- One turn of the loop at a position up to `len` does not depend on the
bytes after index `len`. -/
theorem scanBody_same (message other : List Nat) (len : Nat) (s : Scan)
    (hterm : message[len]? = some 0)
    (hsame : other.take (len + 1) = message.take (len + 1)) (hp : s.position ≤ len) :
    scanBody other s = scanBody message s := by
  have hstr : ∀ p, p ≤ len → strlen other p = strlen message p := by
    intro p hp
    obtain ⟨u, t, t1, h1, h2, hu⟩ := same_string_at message other len p hterm hsame hp
    unfold strlen
    rw [h1, h2, strlenFrom_append_nul u t hu, strlenFrom_append_nul u t1 hu]
  obtain ⟨u, t, t1, h1, h2, hu⟩ := same_string_at message other len s.position hterm hsame hp
  have hchr : strchr other s.position 61 = strchr message s.position 61 := by
    unfold strchr
    rw [h1, h2]
    exact strchrFrom_tail u t1 t 61 s.position
  have hM : strncmp (bytes "MODALIAS=") (other.drop s.position) (STRLEN (bytes "MODALIAS="))
      = strncmp (bytes "MODALIAS=") (message.drop s.position) (STRLEN (bytes "MODALIAS=")) := by
    rw [h1, h2]
    exact strncmp_tail _ u t1 t _
  have hA : strncmp (bytes "ACTION=") (other.drop s.position) (STRLEN (bytes "ACTION="))
      = strncmp (bytes "ACTION=") (message.drop s.position) (STRLEN (bytes "ACTION=")) := by
    rw [h1, h2]
    exact strncmp_tail _ u t1 t _
  have hl := strlen_le message len s.position hterm hp
  unfold scanBody
  rw [hchr, hM, hA, hstr s.position hp]
  cases hd : strchr message s.position 61 with
  | none => rfl
  | some d =>
    obtain ⟨k, hk1, hk2, _, _⟩ := strchrFrom_bound _ 61 s.position d (by decide) hd
    have hk2' : k < strlen message s.position := hk2
    simp only
    rw [hstr d (by omega), hstr (d + 1) (by omega)]

theorem scanLoop_same (message other : List Nat) (len fuel : Nat) (s : Scan)
    (hterm : message[len]? = some 0)
    (hsame : other.take (len + 1) = message.take (len + 1)) (hp : s.position ≤ len) :
    scanLoop other len fuel s = scanLoop message len fuel s := by
  induction fuel generalizing s with
  | zero => rfl
  | succ fuel ih =>
    unfold scanLoop
    rw [scanBody_same message other len s hterm hsame hp]
    by_cases hc : len ≥ (scanBody message s).position
    · simp only [hc, if_true]
      exact ih _ hc
    · simp only [hc, if_false]

/-- The whole of `_handle_new_device` on a buffer terminated at `len` depends
on the bytes at the indices up to `len` only: neither the scan nor the calls
after it read a byte of the buffer beyond the terminator. -/
theorem handle_reads_up_to_len (fork_ret : Int) (message other : List Nat) (len : Nat)
    (hterm : message[len]? = some 0)
    (hsame : other.take (len + 1) = message.take (len + 1)) :
    scan other len = scan message len ∧ parse other len = parse message len ∧
    _handle_new_device fork_ret other len = _handle_new_device fork_ret message len := by
  have hstr : ∀ p, p ≤ len → ∃ u t t1, message.drop p = u ++ 0 :: t ∧
      other.drop p = u ++ 0 :: t1 ∧ ∀ x ∈ u, x ≠ 0 :=
    fun p hp => same_string_at message other len p hterm hsame hp
  have hat : strchr other 0 64 = strchr message 0 64 := by
    obtain ⟨u, t, t1, h1, h2, _⟩ := hstr 0 (by omega)
    unfold strchr
    rw [h1, h2]
    exact strchrFrom_tail u t1 t 64 0
  have hcstr : ∀ p, p ≤ len → cstr (other.drop p) = cstr (message.drop p) := by
    intro p hp
    obtain ⟨u, t, t1, h1, h2, hu⟩ := hstr p hp
    rw [h1, h2, cstr_append_nul u t hu, cstr_append_nul u t1 hu]
  have hcmp : ∀ p, p ≤ len →
      strcmp (bytes "add") (other.drop p) = strcmp (bytes "add") (message.drop p) := by
    intro p hp
    obtain ⟨u, t, t1, h1, h2, _⟩ := hstr p hp
    rw [h1, h2]
    exact strcmp_tail _ u t1 t
  cases hd : strchr message 0 64 with
  | none =>
    have hs : scan message len = some none := by unfold scan; rw [hd]
    have hs1 : scan other len = some none := by unfold scan; rw [hat, hd]
    simp [parse, _handle_new_device, hs, hs1]
  | some position =>
    obtain ⟨hpos, r, hr, _, _, _⟩ := scan_bounds message len position hterm hd
    have hscan : scan other len = scan message len := by
      unfold scan
      rw [hat, hd]
      simp only
      rw [scanLoop_same message other len _ _ hterm hsame hpos]
    have hrl : scanLoop message len (len + 1) ⟨position, none, none⟩ = some r := by
      unfold scan at hr
      rw [hd] at hr
      simpa using hr
    obtain ⟨_, b2, b3⟩ := scanLoop_bounds message len (len + 1) ⟨position, none, none⟩ r hterm
      hpos (by simp) (by simp) hrl
    refine ⟨hscan, ?_, ?_⟩
    · unfold parse
      rw [hscan, hr]
      simp only [Option.map_some', Option.some.injEq, ParsedEvent.mk.injEq]
      constructor
      · cases ha : r.action with
        | none => rfl
        | some q => simp only [Option.map_some', hcstr q (b2 q ha)]
      · cases hm : r.module_alias with
        | none => rfl
        | some q => simp only [Option.map_some', hcstr q (b3 q hm)]
    · unfold _handle_new_device
      rw [hscan, hr]
      simp only
      cases hm : r.module_alias with
      | none => rfl
      | some qm =>
        cases ha : r.action with
        | none => rfl
        | some qa =>
          simp only [hcmp qa (b2 qa ha), hcstr qm (b3 qm hm)]


end Devd
